import Mathlib

/-!
Verification model of the `localcache` core of ZampoRen/go-server-comon.

The development embeds, as executable Lean functions:

* the symmetric key-linkage graph of package `pkg/localcache/link`
  (sharded adjacency maps, `linkKey.link`, `linkKey.del`, `slot.Link`,
  `slot.Del` / `slot.delKey`);
* the active-expiry shard LRU `ExpirationLRU` of
  `pkg/localcache/lru/lru_expiration.go`, together with a model of the
  external dependency `github.com/hashicorp/golang-lru/v2 v2.0.7`
  `expirable.LRU` that backs it;
* the cache coordinator of package `localcache` (`cache.GetLink`,
  `cache.del`, `cache.onEvict`, the pending-deletion queue).

Go maps are modelled as association lists, Go `map[string]struct\x7b\x7d`
sets as duplicate-free key lists, and clock readings (`time.Now()`) as an
explicit `now : Nat` argument.  Mutexes disappear: the model is the
sequential semantics of the code, one operation running at a time.
Go map iteration order is unspecified; the model fixes one order, and every
theorem below depends only on order-independent facts (membership, lookups).
-/

/-- Keys are byte strings; the model uses `String` with byte-wise equality,
matching Go `string` keys. -/
abbrev Key := String

/-- Values cached on behalf of the generic parameter `V`; fetcher errors are
opaque, modelled as strings (`error` in Go). -/
abbrev Err := String

/-- UTF-8 bytes of one character, as Go produces them in `[]byte(key)`. -/
def charUtf8 (c : Char) : List Nat :=
  let n := c.toNat
  if n < 128 then [n]
  else if n < 2048 then [192 + n / 64, 128 + n % 64]
  else if n < 65536 then [224 + n / 4096, 128 + (n / 64) % 64, 128 + n % 64]
  else [240 + n / 262144, 128 + (n / 4096) % 64, 128 + (n / 64) % 64, 128 + n % 64]

/-- The byte sequence Go writes with `h.Write([]byte(key))`. -/
def strBytes (s : String) : List Nat := (s.data.map charUtf8).flatten

/-- 64-bit FNV-1a, as computed by `hash/fnv` in `LRUStringHash` and
`slot.index`: start from the offset basis, xor each byte in, multiply by the
FNV prime, all modulo 2^64. -/
def fnv1a64 (s : Key) : Nat :=
  (strBytes s).foldl (fun h b => ((h ^^^ b) * 1099511628211) % (2 ^ 64))
    14695981039346656037

/-- Insertion into a Go `map[string]struct\x7b\x7d` set: `v[k] = struct\x7b\x7d\x7b\x7d`
is a no-op when the key is already present. -/
def setInsert (s : List Key) (k : Key) : List Key := if k ∈ s then s else k :: s

/-- One shard's `data map[string]map[string]struct\x7b\x7d` of `linkKey`,
as an association list from key to its adjacency set. -/
abbrev LinkData := List (Key × List Key)

/-- Go map read `x.data[key]`. -/
def lookupData : LinkData → Key → Option (List Key)
  | [], _ => none
  | p :: d, k => if p.1 = k then some p.2 else lookupData d k

/-- Go map write `x.data[key] = v`. -/
def setData : LinkData → Key → List Key → LinkData
  | [], k, v => [(k, v)]
  | p :: d, k, v => if p.1 = k then (k, v) :: d else p :: setData d k v

/-- Go map removal `delete(x.data, key)`. -/
def removeData : LinkData → Key → LinkData
  | [], _ => []
  | p :: d, k => if p.1 = k then removeData d k else p :: removeData d k

/-- `linkKey.link`: fetch (or create) the adjacency set of `key` and insert
every element of `links` into it. -/
def linkKeyLink (d : LinkData) (key : Key) (links : List Key) : LinkData :=
  setData d key (links.foldl setInsert ((lookupData d key).getD []))

/-- `linkKey.del`: if `key` has no entry return `nil` and leave the shard
unchanged; otherwise remove the entry and return the adjacency set it held. -/
def linkKeyDel (d : LinkData) (key : Key) : Option (List Key) × LinkData :=
  match lookupData d key with
  | none => (none, d)
  | some ks => (some ks, removeData d key)

/-- The sharded linkage graph `slot`: a vector of `linkKey` shards.
`New(n)` builds `n` empty shards (and panics for `n ≤ 0`). -/
structure Slot where
  slots : List LinkData
  deriving Repr, DecidableEq

/-- `link.New n`: `n` empty shards. -/
def newSlot (n : Nat) : Slot := ⟨List.replicate n []⟩

/-- `slot.index`: FNV-1a of the key modulo the shard count. -/
def Slot.index (x : Slot) (s : Key) : Nat := fnv1a64 s % x.slots.length

/-- The adjacency entry the graph holds for `k`, read from `k`'s shard. -/
def Slot.entry (x : Slot) (k : Key) : Option (List Key) :=
  lookupData (x.slots.getD (x.index k) []) k

/-- The adjacency set of `k` (empty when `k` has no entry). -/
def Slot.adj (x : Slot) (k : Key) : List Key := (x.entry k).getD []

/-- One `x.slots[x.index(key)].link(key, links...)` call. -/
def Slot.linkAt (x : Slot) (key : Key) (links : List Key) : Slot :=
  ⟨x.slots.set (x.index key) (linkKeyLink (x.slots.getD (x.index key) []) key links)⟩

/-- `slot.Link`: no-op on an empty list; otherwise insert `links` into
`adj(key)` and, for each `lk` in `links`, insert `key` into `adj(lk)`. -/
def Slot.Link (x : Slot) (key : Key) (links : List Key) : Slot :=
  if links.isEmpty then x
  else links.foldl (fun acc lk => acc.linkAt lk [key]) (x.linkAt key links)

/-- One `x.slots[x.index(curr)].del(curr)` call (a `linkKeyDel` routed to
`curr`'s shard). -/
def Slot.delAt (x : Slot) (key : Key) : Option (List Key) × Slot :=
  let i := x.index key
  let d := x.slots.getD i []
  match lookupData d key with
  | none => (none, x)
  | some ks => (some ks, ⟨x.slots.set i (removeData d key)⟩)

/-- Size of one shard, counting one unit per entry plus its set size; used
to bound the `delKey` work list. -/
def weightD (d : LinkData) : Nat := (d.map (fun p => p.2.length + 1)).sum

/-- Total size of the graph, the fuel bound of `Slot.delGo`. -/
def Slot.weight (x : Slot) : Nat := (x.slots.map weightD).sum

/-- The loop of `slot.delKey`: pop a key from the work stack, skip it when
already visited, otherwise record it, extract its adjacency entry from its
shard and push the members.  The head of `stack` is the top of Go's stack
(Go pops from the end of its slice; the Lean list is that slice reversed, a
choice that only fixes the unspecified map iteration order).  The fuel
argument dominates the loop: each iteration removes one stack element and
pushes at most the weight the graph just lost, so `Slot.weight x + stack
length` iterations always finish the loop. -/
def Slot.delGo : Slot → List Key → List Key → Nat → List Key × Slot
  | x, _, del, 0 => (del, x)
  | x, [], del, _ + 1 => (del, x)
  | x, curr :: rest, del, fuel + 1 =>
    if curr ∈ del then Slot.delGo x rest del fuel
    else
      match x.delAt curr with
      | (none, _) => Slot.delGo x rest (curr :: del) fuel
      | (some cs, x') => Slot.delGo x' (cs ++ rest) (curr :: del) fuel

/-- `slot.delKey`: run the work-list loop from the single key `k` with an
empty visited set. -/
def Slot.delKey (x : Slot) (k : Key) : List Key × Slot :=
  Slot.delGo x [k] [] (x.weight + 1)

/-- `slot.Del`, the `Link` interface's delete: delegates to `delKey`. -/
def Slot.Del (x : Slot) (k : Key) : List Key × Slot := x.delKey k

/-! ### Association-list and shard-vector lemmas -/

theorem lookup_setData (d : LinkData) (k : Key) (v : List Key) (a : Key) :
    lookupData (setData d k v) a = if a = k then some v else lookupData d a := by
  induction d with
  | nil =>
    rcases eq_or_ne a k with h | h
    · simp [setData, lookupData, h]
    · simp [setData, lookupData, h, Ne.symm h]
  | cons p d ih =>
    rcases eq_or_ne p.1 k with hpk | hpk
    · rcases eq_or_ne a k with hak | hak
      · simp [setData, lookupData, hpk, hak]
      · simp [setData, lookupData, hpk, hak, Ne.symm hak]
    · rcases eq_or_ne p.1 a with hpa | hpa
      · have hak : a ≠ k := fun h => hpk (hpa.trans h)
        simp [setData, lookupData, hpk, hpa, hak]
      · simp [setData, lookupData, hpk, hpa, ih]

theorem lookup_removeData (d : LinkData) (k : Key) (a : Key) :
    lookupData (removeData d k) a = if a = k then none else lookupData d a := by
  induction d with
  | nil => simp [removeData, lookupData]
  | cons p d ih =>
    rcases eq_or_ne p.1 k with hpk | hpk
    · rcases eq_or_ne a k with hak | hak
      · subst hak
        simp [removeData, hpk]
        simpa using ih
      · simp [removeData, lookupData, hpk, hak, Ne.symm hak, ih]
    · rcases eq_or_ne p.1 a with hpa | hpa
      · have hak : a ≠ k := fun h => hpk (hpa.trans h)
        simp [removeData, lookupData, hpk, hpa, hak]
      · simp [removeData, lookupData, hpk, hpa, ih]

theorem getD_set_self {α : Type} (l : List α) (i : Nat) (b d : α) (h : i < l.length) :
    (l.set i b).getD i d = b := by
  simp [List.getD_eq_getElem?_getD, List.getElem?_set_self', List.getElem?_eq_getElem h]

theorem getD_set_ne {α : Type} (l : List α) (i j : Nat) (b d : α) (h : j ≠ i) :
    (l.set i b).getD j d = l.getD j d := by
  simp [List.getD_eq_getElem?_getD, List.getElem?_set_ne (fun hh => h hh.symm)]

theorem index_lt (x : Slot) (k : Key) (h : 0 < x.slots.length) :
    x.index k < x.slots.length := Nat.mod_lt _ h

theorem linkAt_length (x : Slot) (k : Key) (ls : List Key) :
    (x.linkAt k ls).slots.length = x.slots.length := by
  simp [Slot.linkAt]

theorem index_eq_of_length (x y : Slot) (h : y.slots.length = x.slots.length) (k : Key) :
    y.index k = x.index k := by
  simp [Slot.index, h]

/-- Inserting all of `ls` into a set, the fold `linkKeyLink` performs. -/
def insertAll (s : List Key) (ls : List Key) : List Key := ls.foldl setInsert s

theorem mem_setInsert (s : List Key) (k b : Key) :
    b ∈ setInsert s k ↔ b ∈ s ∨ b = k := by
  by_cases h : k ∈ s
  · simp only [setInsert, if_pos h]
    constructor
    · exact Or.inl
    · rintro (hb | rfl)
      · exact hb
      · exact h
  · simp only [setInsert, if_neg h, List.mem_cons]
    tauto

theorem mem_insertAll (s : List Key) (ls : List Key) (b : Key) :
    b ∈ insertAll s ls ↔ b ∈ s ∨ b ∈ ls := by
  induction ls generalizing s with
  | nil => simp [insertAll]
  | cons l tl ih =>
    show b ∈ insertAll (setInsert s l) tl ↔ _
    rw [ih, mem_setInsert]
    simp [List.mem_cons]
    tauto

theorem entry_linkAt (x : Slot) (k : Key) (ls : List Key) (a : Key)
    (h : 0 < x.slots.length) :
    (x.linkAt k ls).entry a =
      if a = k then some (insertAll (x.adj k) ls) else x.entry a := by
  have hlen := linkAt_length x k ls
  have hidx : ∀ b, (x.linkAt k ls).index b = x.index b :=
    index_eq_of_length x _ hlen
  show lookupData ((x.linkAt k ls).slots.getD ((x.linkAt k ls).index a) []) a = _
  rw [hidx a]
  by_cases hik : x.index a = x.index k
  · rw [show (x.linkAt k ls).slots = x.slots.set (x.index k)
        (linkKeyLink (x.slots.getD (x.index k) []) k ls) from rfl]
    rw [hik, getD_set_self _ _ _ _ (index_lt x k h)]
    rw [linkKeyLink, lookup_setData]
    rcases eq_or_ne a k with hak | hak
    · subst hak
      simp [Slot.adj, Slot.entry, hik, insertAll]
    · simp [hak, Slot.entry, hik]
  · have hak : a ≠ k := fun hh => hik (by rw [hh])
    rw [show (x.linkAt k ls).slots = x.slots.set (x.index k)
        (linkKeyLink (x.slots.getD (x.index k) []) k ls) from rfl]
    rw [getD_set_ne _ _ _ _ _ hik]
    simp [hak, Slot.entry]

theorem delAt_fst (x : Slot) (k : Key) : (x.delAt k).1 = x.entry k := by
  show (match lookupData (x.slots.getD (x.index k) []) k with
    | none => (none, x)
    | some ks => (some ks, (⟨x.slots.set (x.index k)
        (removeData (x.slots.getD (x.index k) []) k)⟩ : Slot))).1 = x.entry k
  cases h : lookupData (x.slots.getD (x.index k) []) k
  · exact h.symm
  · exact h.symm

theorem delAt_of_entry_none (x : Slot) (k : Key) (h : x.entry k = none) :
    x.delAt k = (none, x) := by
  show (match lookupData (x.slots.getD (x.index k) []) k with
    | none => (none, x)
    | some ks => (some ks, (⟨x.slots.set (x.index k)
        (removeData (x.slots.getD (x.index k) []) k)⟩ : Slot))) = (none, x)
  rw [show lookupData (x.slots.getD (x.index k) []) k = none from h]

theorem delAt_length (x : Slot) (k : Key) :
    (x.delAt k).2.slots.length = x.slots.length := by
  show (match lookupData (x.slots.getD (x.index k) []) k with
    | none => (none, x)
    | some ks => (some ks, (⟨x.slots.set (x.index k)
        (removeData (x.slots.getD (x.index k) []) k)⟩ : Slot))).2.slots.length = _
  cases h : lookupData (x.slots.getD (x.index k) []) k <;> simp

theorem entry_delAt (x : Slot) (k a : Key) :
    (x.delAt k).2.entry a = if a = k then none else x.entry a := by
  cases h : x.entry k with
  | none =>
    rw [delAt_of_entry_none x k h]
    rcases eq_or_ne a k with hak | hak
    · subst hak; simp [h]
    · simp [hak]
  | some cs =>
    have hpos : 0 < x.slots.length := by
      rcases Nat.eq_zero_or_pos x.slots.length with h0 | h0
      · exfalso
        have : x.slots = [] := List.length_eq_zero.mp h0
        rw [Slot.entry, this] at h
        simp [lookupData] at h
      · exact h0
    have hrepr : x.delAt k = (some cs, ⟨x.slots.set (x.index k)
        (removeData (x.slots.getD (x.index k) []) k)⟩) := by
      show (match lookupData (x.slots.getD (x.index k) []) k with
        | none => (none, x)
        | some ks => (some ks, (⟨x.slots.set (x.index k)
            (removeData (x.slots.getD (x.index k) []) k)⟩ : Slot))) = _
      rw [show lookupData (x.slots.getD (x.index k) []) k = some cs from h]
    rw [hrepr]
    have hlen : (Slot.mk (x.slots.set (x.index k)
        (removeData (x.slots.getD (x.index k) []) k))).slots.length = x.slots.length := by
      simp
    have hidx := index_eq_of_length x _ hlen
    show lookupData ((x.slots.set (x.index k)
        (removeData (x.slots.getD (x.index k) []) k)).getD
        ((Slot.mk (x.slots.set (x.index k)
          (removeData (x.slots.getD (x.index k) []) k))).index a) []) a = _
    rw [hidx a]
    by_cases hik : x.index a = x.index k
    · rw [hik, getD_set_self _ _ _ _ (index_lt x k hpos), lookup_removeData]
      rcases eq_or_ne a k with hak | hak
      · simp [hak]
      · simp [hak, Slot.entry, hik]
    · have hak : a ≠ k := fun hh => hik (by rw [hh])
      rw [getD_set_ne _ _ _ _ _ hik]
      simp [hak, Slot.entry]

theorem adj_delAt (x : Slot) (k a : Key) :
    (x.delAt k).2.adj a = if a = k then [] else x.adj a := by
  rw [Slot.adj, entry_delAt]
  rcases eq_or_ne a k with hak | hak <;> simp [hak, Slot.adj]

/-! ### Weight bookkeeping for the delete loop -/

theorem weightD_remove_le (d : LinkData) (k : Key) (cs : List Key)
    (h : lookupData d k = some cs) :
    weightD (removeData d k) + (cs.length + 1) ≤ weightD d := by
  induction d with
  | nil => simp [lookupData] at h
  | cons p d ih =>
    rcases eq_or_ne p.1 k with hpk | hpk
    · have hcs : p.2 = cs := by simpa [lookupData, hpk] using h
      subst hcs
      have hsub : weightD (removeData d k) ≤ weightD d := by
        clear h ih
        induction d with
        | nil => simp [removeData]
        | cons q d ihq =>
          rcases eq_or_ne q.1 k with hq | hq <;> simp [removeData, hq, weightD] at ihq ⊢ <;> omega
      simp only [removeData, if_pos hpk, weightD, List.map_cons, List.sum_cons] at *
      omega
    · have h' : lookupData d k = some cs := by simpa [lookupData, hpk] using h
      have := ih h'
      simp only [removeData, if_neg hpk, weightD, List.map_cons, List.sum_cons] at *
      omega

theorem weight_set_le (l : List LinkData) (i : Nat) (d' : LinkData) (c : Nat)
    (hi : i < l.length) (h : weightD d' + c ≤ weightD (l.getD i [])) :
    ((l.set i d').map weightD).sum + c ≤ (l.map weightD).sum := by
  induction l generalizing i with
  | nil => simp at hi
  | cons p l ih =>
    cases i with
    | zero =>
      simp only [List.set_cons_zero, List.map_cons, List.sum_cons]
      simp only [List.getD_cons_zero] at h
      omega
    | succ j =>
      simp only [List.set_cons_succ, List.map_cons, List.sum_cons]
      simp only [List.getD_cons_succ] at h
      have := ih j (by simpa using hi) h
      omega

theorem weight_delAt (x : Slot) (k : Key) (cs : List Key)
    (h : x.entry k = some cs) :
    (x.delAt k).2.weight + (cs.length + 1) ≤ x.weight := by
  have hpos : 0 < x.slots.length := by
    rcases Nat.eq_zero_or_pos x.slots.length with h0 | h0
    · exfalso
      have : x.slots = [] := List.length_eq_zero.mp h0
      rw [Slot.entry, this] at h
      simp [lookupData] at h
    · exact h0
  have hrepr : x.delAt k = (some cs, ⟨x.slots.set (x.index k)
      (removeData (x.slots.getD (x.index k) []) k)⟩) := by
    show (match lookupData (x.slots.getD (x.index k) []) k with
      | none => (none, x)
      | some ks => (some ks, (⟨x.slots.set (x.index k)
          (removeData (x.slots.getD (x.index k) []) k)⟩ : Slot))) = _
    rw [show lookupData (x.slots.getD (x.index k) []) k = some cs from h]
  rw [hrepr]
  exact weight_set_le _ _ _ _ (index_lt x k hpos) (weightD_remove_le _ _ _ h)

/-! ### Basic facts about the delete loop -/

theorem delGo_nil (x : Slot) (del : List Key) (fuel : Nat) :
    Slot.delGo x [] del fuel = (del, x) := by
  cases fuel <;> rfl

theorem delGo_zero (x : Slot) (stack del : List Key) :
    Slot.delGo x stack del 0 = (del, x) := by
  cases stack <;> rfl

theorem delGo_entry_none (fuel : Nat) :
    ∀ (x : Slot) (stack del : List Key) (a : Key), x.entry a = none →
      (Slot.delGo x stack del fuel).2.entry a = none := by
  induction fuel with
  | zero => intro x stack del a h; rw [delGo_zero]; exact h
  | succ fuel ih =>
    intro x stack del a h
    cases stack with
    | nil => exact h
    | cons curr rest =>
      by_cases hc : curr ∈ del
      · rw [show Slot.delGo x (curr :: rest) del (fuel + 1) = Slot.delGo x rest del fuel by
          simp [Slot.delGo, hc]]
        exact ih x rest del a h
      · cases hd : x.delAt curr with
        | mk o x' =>
          cases o with
          | none =>
            rw [show Slot.delGo x (curr :: rest) del (fuel + 1) =
                Slot.delGo x rest (curr :: del) fuel by simp [Slot.delGo, hc, hd]]
            exact ih x rest (curr :: del) a h
          | some cs =>
            rw [show Slot.delGo x (curr :: rest) del (fuel + 1) =
                Slot.delGo x' (cs ++ rest) (curr :: del) fuel by simp [Slot.delGo, hc, hd]]
            have hx' : x' = (x.delAt curr).2 := by rw [hd]
            have : x'.entry a = none := by
              rw [hx', entry_delAt]
              rcases eq_or_ne a curr with hac | hac <;> simp [hac, h]
            exact ih x' (cs ++ rest) (curr :: del) a this

theorem delGo_del_sub (fuel : Nat) :
    ∀ (x : Slot) (stack del : List Key) (a : Key), a ∈ del →
      a ∈ (Slot.delGo x stack del fuel).1 := by
  induction fuel with
  | zero => intro x stack del a h; rw [delGo_zero]; exact h
  | succ fuel ih =>
    intro x stack del a h
    cases stack with
    | nil => exact h
    | cons curr rest =>
      by_cases hc : curr ∈ del
      · rw [show Slot.delGo x (curr :: rest) del (fuel + 1) = Slot.delGo x rest del fuel by
          simp [Slot.delGo, hc]]
        exact ih x rest del a h
      · cases hd : x.delAt curr with
        | mk o x' =>
          cases o with
          | none =>
            rw [show Slot.delGo x (curr :: rest) del (fuel + 1) =
                Slot.delGo x rest (curr :: del) fuel by simp [Slot.delGo, hc, hd]]
            exact ih x rest (curr :: del) a (List.mem_cons_of_mem _ h)
          | some cs =>
            rw [show Slot.delGo x (curr :: rest) del (fuel + 1) =
                Slot.delGo x' (cs ++ rest) (curr :: del) fuel by simp [Slot.delGo, hc, hd]]
            exact ih x' (cs ++ rest) (curr :: del) a (List.mem_cons_of_mem _ h)

theorem Del_entry_self (x : Slot) (k : Key) : (x.Del k).2.entry k = none := by
  rw [Slot.Del, Slot.delKey]
  cases hd : x.delAt k with
  | mk o x' =>
    cases o with
    | none =>
      rw [show Slot.delGo x [k] [] (x.weight + 1) = Slot.delGo x [] [k] x.weight by
        simp [Slot.delGo, hd]]
      rw [delGo_nil]
      have hfst := delAt_fst x k
      rw [hd] at hfst
      exact hfst.symm
    | some cs =>
      rw [show Slot.delGo x [k] [] (x.weight + 1) = Slot.delGo x' (cs ++ []) [k] x.weight by
        simp [Slot.delGo, hd]]
      have hx' : x' = (x.delAt k).2 := by rw [hd]
      refine delGo_entry_none _ _ _ _ _ ?_
      rw [hx', entry_delAt]
      simp

theorem Del_mem_self (x : Slot) (k : Key) : k ∈ (x.Del k).1 := by
  rw [Slot.Del, Slot.delKey]
  cases hd : x.delAt k with
  | mk o x' =>
    cases o with
    | none =>
      rw [show Slot.delGo x [k] [] (x.weight + 1) = Slot.delGo x [] [k] x.weight by
        simp [Slot.delGo, hd]]
      rw [delGo_nil]
      simp
    | some cs =>
      rw [show Slot.delGo x [k] [] (x.weight + 1) = Slot.delGo x' (cs ++ []) [k] x.weight by
        simp [Slot.delGo, hd]]
      exact delGo_del_sub _ _ _ _ _ (by simp)

theorem Del_absent (x : Slot) (k : Key) (h : x.entry k = none) :
    x.Del k = ([k], x) := by
  rw [Slot.Del, Slot.delKey]
  rw [show Slot.delGo x [k] [] (x.weight + 1) = Slot.delGo x [] [k] x.weight by
    simp [Slot.delGo, delAt_of_entry_none x k h]]
  exact delGo_nil x [k] x.weight

theorem Del_entry_none_mono (x : Slot) (k a : Key) (h : x.entry a = none) :
    (x.Del k).2.entry a = none := by
  rw [Slot.Del, Slot.delKey]
  exact delGo_entry_none _ _ _ _ _ h

/-! ### The symmetry invariant of the linkage graph -/

/-- Symmetry of the adjacency relation, as the spec states it. -/
def Slot.Symm (x : Slot) : Prop := ∀ a b : Key, b ∈ x.adj a ↔ a ∈ x.adj b

/-- The invariant the delete loop maintains: visited keys have no entry, an
edge whose target is unvisited has a reverse edge, and an edge whose target
is visited originates from a key still on the work stack. -/
def SlotInv (x : Slot) (stack del : List Key) : Prop :=
  (∀ k ∈ del, x.entry k = none) ∧
  (∀ a b : Key, b ∈ x.adj a → b ∈ del ∨ a ∈ x.adj b) ∧
  (∀ a b : Key, b ∈ x.adj a → b ∈ del → a ∈ stack)

theorem adj_of_entry_none (x : Slot) (k : Key) (h : x.entry k = none) :
    x.adj k = [] := by
  simp [Slot.adj, h]

theorem symm_of_inv_nil (x : Slot) (del : List Key) (h : SlotInv x [] del) :
    Slot.Symm x := by
  obtain ⟨h1, h2, h3⟩ := h
  have dir : ∀ a b : Key, b ∈ x.adj a → a ∈ x.adj b := by
    intro a b hb
    rcases h2 a b hb with hbd | hok
    · exact absurd (h3 a b hb hbd) (List.not_mem_nil a)
    · exact hok
  exact fun a b => ⟨dir a b, dir b a⟩

theorem delGo_symm (fuel : Nat) :
    ∀ (x : Slot) (stack del : List Key),
      x.weight + stack.length ≤ fuel → SlotInv x stack del →
      Slot.Symm (Slot.delGo x stack del fuel).2 := by
  induction fuel with
  | zero =>
    intro x stack del hf hinv
    have hstack : stack = [] := by
      cases stack with
      | nil => rfl
      | cons c r => simp at hf
    subst hstack
    rw [delGo_zero]
    exact symm_of_inv_nil x del hinv
  | succ fuel ih =>
    intro x stack del hf hinv
    obtain ⟨h1, h2, h3⟩ := hinv
    cases stack with
    | nil =>
      rw [delGo_nil]
      exact symm_of_inv_nil x del ⟨h1, h2, h3⟩
    | cons curr rest =>
      by_cases hc : curr ∈ del
      · rw [show Slot.delGo x (curr :: rest) del (fuel + 1) = Slot.delGo x rest del fuel by
          simp [Slot.delGo, hc]]
        apply ih x rest del
        · simp only [List.length_cons] at hf
          omega
        · refine ⟨h1, h2, ?_⟩
          intro a b hb hbdel
          rcases List.mem_cons.mp (h3 a b hb hbdel) with rfl | hmem
          · exfalso
            rw [adj_of_entry_none x a (h1 a hc)] at hb
            simp at hb
          · exact hmem
      · cases hd : x.delAt curr with
        | mk o x' =>
          cases o with
          | none =>
            have hen : x.entry curr = none := by
              have hfst := delAt_fst x curr
              rw [hd] at hfst
              exact hfst.symm
            rw [show Slot.delGo x (curr :: rest) del (fuel + 1) =
                Slot.delGo x rest (curr :: del) fuel by simp [Slot.delGo, hc, hd]]
            apply ih x rest (curr :: del)
            · simp only [List.length_cons] at hf
              omega
            · refine ⟨?_, ?_, ?_⟩
              · intro k hk
                rcases List.mem_cons.mp hk with rfl | hkd
                · exact hen
                · exact h1 k hkd
              · intro a b hb
                rcases h2 a b hb with hbd | hok
                · exact Or.inl (List.mem_cons_of_mem _ hbd)
                · exact Or.inr hok
              · intro a b hb hbdel
                rcases List.mem_cons.mp hbdel with rfl | hbd
                · rcases h2 a b hb with hbd' | hok
                  · exact absurd hbd' hc
                  · rw [adj_of_entry_none x b hen] at hok
                    simp at hok
                · rcases List.mem_cons.mp (h3 a b hb hbd) with rfl | hmem
                  · exfalso
                    rw [adj_of_entry_none x a hen] at hb
                    simp at hb
                  · exact hmem
          | some cs =>
            have hsome : x.entry curr = some cs := by
              have hfst := delAt_fst x curr
              rw [hd] at hfst
              exact hfst.symm
            have hx' : x' = (x.delAt curr).2 := by rw [hd]
            have hadj' : ∀ a, x'.adj a = if a = curr then [] else x.adj a := by
              intro a
              rw [hx', adj_delAt]
            have hent' : ∀ a, x'.entry a = if a = curr then none else x.entry a := by
              intro a
              rw [hx', entry_delAt]
            have hw : x'.weight + (cs.length + 1) ≤ x.weight := by
              rw [hx']
              exact weight_delAt x curr cs hsome
            rw [show Slot.delGo x (curr :: rest) del (fuel + 1) =
                Slot.delGo x' (cs ++ rest) (curr :: del) fuel by simp [Slot.delGo, hc, hd]]
            apply ih x' (cs ++ rest) (curr :: del)
            · simp only [List.length_cons, List.length_append] at hf ⊢
              omega
            · refine ⟨?_, ?_, ?_⟩
              · intro k hk
                rw [hent' k]
                rcases List.mem_cons.mp hk with rfl | hkd
                · simp
                · rcases eq_or_ne k curr with rfl | hkc
                  · simp
                  · rw [if_neg hkc]
                    exact h1 k hkd
              · intro a b hb
                rw [hadj' a] at hb
                by_cases hac : a = curr
                · rw [if_pos hac] at hb
                  simp at hb
                · rw [if_neg hac] at hb
                  rcases h2 a b hb with hbd | hok
                  · exact Or.inl (List.mem_cons_of_mem _ hbd)
                  · by_cases hbc : b = curr
                    · exact Or.inl (by rw [hbc]; exact List.mem_cons_self _ _)
                    · right
                      rw [hadj' b, if_neg hbc]
                      exact hok
              · intro a b hb hbdel
                rw [hadj' a] at hb
                by_cases hac : a = curr
                · rw [if_pos hac] at hb
                  simp at hb
                · rw [if_neg hac] at hb
                  rcases List.mem_cons.mp hbdel with rfl | hbd
                  · rcases h2 a b hb with hbd' | hok
                    · exact absurd hbd' hc
                    · have hacs : a ∈ cs := by
                        have : x.adj b = cs := by
                          simp [Slot.adj, hsome]
                        rw [this] at hok
                        exact hok
                      exact List.mem_append.mpr (Or.inl hacs)
                  · rcases List.mem_cons.mp (h3 a b hb hbd) with rfl | hmem
                    · exact absurd rfl hac
                    · exact List.mem_append.mpr (Or.inr hmem)

theorem Del_symm (x : Slot) (k : Key) (h : Slot.Symm x) : Slot.Symm (x.Del k).2 := by
  rw [Slot.Del, Slot.delKey]
  apply delGo_symm
  · simp
  · refine ⟨by simp, fun a b hb => Or.inr ((h a b).mp hb), by simp⟩

/-! ### Link characterization -/

theorem adj_linkAt (x : Slot) (k : Key) (ls : List Key) (a : Key)
    (h : 0 < x.slots.length) :
    (x.linkAt k ls).adj a =
      if a = k then insertAll (x.adj k) ls else x.adj a := by
  rw [Slot.adj, entry_linkAt x k ls a h]
  rcases eq_or_ne a k with hak | hak <;> simp [hak, Slot.adj]

theorem linkFold_length (k : Key) (ls : List Key) :
    ∀ x : Slot,
      (ls.foldl (fun acc lk => acc.linkAt lk [k]) x).slots.length = x.slots.length := by
  induction ls with
  | nil => intro x; rfl
  | cons l tl ih =>
    intro x
    show (tl.foldl (fun acc lk => acc.linkAt lk [k]) (x.linkAt l [k])).slots.length = _
    rw [ih (x.linkAt l [k]), linkAt_length]

theorem mem_adj_linkFold (k : Key) (ls : List Key) :
    ∀ (x : Slot) (a b : Key), 0 < x.slots.length →
      (b ∈ (ls.foldl (fun acc lk => acc.linkAt lk [k]) x).adj a ↔
        b ∈ x.adj a ∨ (a ∈ ls ∧ b = k)) := by
  induction ls with
  | nil => intro x a b _; simp
  | cons l tl ih =>
    intro x a b h
    show b ∈ (tl.foldl (fun acc lk => acc.linkAt lk [k]) (x.linkAt l [k])).adj a ↔ _
    rw [ih (x.linkAt l [k]) a b (by rw [linkAt_length]; exact h)]
    rw [adj_linkAt x l [k] a h]
    rcases eq_or_ne a l with hal | hal
    · rw [if_pos hal, mem_insertAll]
      subst hal
      simp only [List.mem_singleton, List.mem_cons, true_or, true_and]
      tauto
    · rw [if_neg hal]
      simp only [List.mem_cons]
      tauto

theorem Link_length (x : Slot) (k : Key) (ls : List Key) :
    (x.Link k ls).slots.length = x.slots.length := by
  rw [Slot.Link]
  by_cases he : ls.isEmpty
  · rw [if_pos he]
  · rw [if_neg he, linkFold_length, linkAt_length]

theorem mem_adj_Link (x : Slot) (k : Key) (ls : List Key) (a b : Key)
    (h : 0 < x.slots.length) :
    b ∈ (x.Link k ls).adj a ↔
      b ∈ x.adj a ∨ (a = k ∧ b ∈ ls) ∨ (a ∈ ls ∧ b = k) := by
  rw [Slot.Link]
  by_cases he : ls.isEmpty
  · have : ls = [] := List.isEmpty_iff.mp he
    subst this
    simp
  · rw [if_neg he]
    rw [mem_adj_linkFold k ls (x.linkAt k ls) a b (by rw [linkAt_length]; exact h)]
    rw [adj_linkAt x k ls a h]
    rcases eq_or_ne a k with hak | hak
    · rw [if_pos hak, mem_insertAll]
      subst hak
      tauto
    · rw [if_neg hak]
      tauto

theorem linkAt_slots_nil (x : Slot) (k : Key) (ls : List Key) (h : x.slots = []) :
    (x.linkAt k ls).slots = [] := by
  show x.slots.set (x.index k) _ = []
  rw [h]
  cases x.index k <;> rfl

theorem Link_slots_nil (x : Slot) (k : Key) (ls : List Key) (h : x.slots = []) :
    (x.Link k ls).slots = [] := by
  rw [Slot.Link]
  by_cases he : ls.isEmpty
  · rw [if_pos he]; exact h
  · rw [if_neg he]
    have : ∀ (l : List Key) (y : Slot), y.slots = [] →
        (l.foldl (fun acc lk => acc.linkAt lk [k]) y).slots = [] := by
      intro l
      induction l with
      | nil => intro y hy; exact hy
      | cons q tl ih =>
        intro y hy
        exact ih (y.linkAt q [k]) (linkAt_slots_nil y q [k] hy)
    exact this ls (x.linkAt k ls) (linkAt_slots_nil x k ls h)

theorem adj_of_slots_nil (x : Slot) (a : Key) (h : x.slots = []) : x.adj a = [] := by
  simp [Slot.adj, Slot.entry, h, lookupData]

theorem Link_symm (x : Slot) (k : Key) (ls : List Key) (h : Slot.Symm x) :
    Slot.Symm (x.Link k ls) := by
  rcases Nat.eq_zero_or_pos x.slots.length with h0 | h0
  · have hnil : x.slots = [] := List.length_eq_zero.mp h0
    intro a b
    rw [adj_of_slots_nil _ a (Link_slots_nil x k ls hnil),
      adj_of_slots_nil _ b (Link_slots_nil x k ls hnil)]
    simp
  · intro a b
    rw [mem_adj_Link x k ls a b h0, mem_adj_Link x k ls b a h0]
    have hab := h a b
    tauto

/-! ### Model of the backing expirable LRU

`ExpirationLRU` (active-expiry mode) wraps `expirable.LRU` from the external
dependency `github.com/hashicorp/golang-lru/v2 v2.0.7` (pinned in `go.mod`).
That library is not part of this repository; the definitions below model its
behaviour: `Get` returns a present, unexpired entry and moves it to the
front; `Add` updates a present key in place or pushes a new entry at the
front, removing the oldest entry when the bound `size > 0` is exceeded;
`Remove` deletes a present key.  In that library every removal — capacity
eviction, expiry, and explicit `Remove` alike — goes through its
`removeElement`, which invokes the registered eviction callback; the model
therefore reports the evicted or removed key to the caller, who applies the
callback's effect.  The background expiry goroutine is outside this
sequential model. -/

/-- `expirationLruItem`: the per-slot value and error pair; a freshly
inserted pending slot holds the zero value and a nil error. -/
structure EItem (V : Type) where
  value : V
  err : Option Err
  deriving DecidableEq

/-- One entry of the expirable LRU: the slot plus its absolute deadline. -/
structure ELruEntry (V : Type) where
  value : EItem V
  expiresAt : Nat
  deriving DecidableEq

/-- The expirable LRU: capacity, TTL and the entries in recency order, the
most recently used first. -/
structure ELru (V : Type) where
  size : Nat
  ttl : Nat
  items : List (Key × ELruEntry V)
  deriving DecidableEq

/-- Go map read on the item table. -/
def lookupItems {V : Type} : List (Key × ELruEntry V) → Key → Option (ELruEntry V)
  | [], _ => none
  | p :: l, k => if p.1 = k then some p.2 else lookupItems l k

/-- Removal of a key from the item table. -/
def removeItems {V : Type} : List (Key × ELruEntry V) → Key → List (Key × ELruEntry V)
  | [], _ => []
  | p :: l, k => if p.1 = k then removeItems l k else p :: removeItems l k

/-- `expirable.LRU.Get`: a present, unexpired entry is returned and moved to
the most-recent end; an expired entry is reported as a miss and left in
place for the background goroutine. -/
def eGet {V : Type} (core : ELru V) (now : Nat) (k : Key) :
    Option (EItem V) × ELru V :=
  match lookupItems core.items k with
  | none => (none, core)
  | some e =>
    if now > e.expiresAt then (none, core)
    else (some e.value, { core with items := (k, e) :: removeItems core.items k })

/-- `expirable.LRU.Add`: update a present key in place (new deadline, moved
to the front); otherwise push a new entry and, when `size > 0` is exceeded,
remove the oldest entry, returning its key so the caller can run the
eviction callback on it. -/
def eAdd {V : Type} (core : ELru V) (now : Nat) (k : Key) (it : EItem V) :
    Option Key × ELru V :=
  match lookupItems core.items k with
  | some _ =>
    (none, { core with items := (k, ⟨it, now + core.ttl⟩) :: removeItems core.items k })
  | none =>
    let items1 := (k, (⟨it, now + core.ttl⟩ : ELruEntry V)) :: core.items
    if 0 < core.size ∧ core.size < items1.length then
      ((items1.getLast?).map Prod.fst, { core with items := items1.dropLast })
    else
      (none, { core with items := items1 })

/-- `expirable.LRU.Remove`: delete a present key, reporting whether it was
present; the caller runs the eviction callback on a removed key, as the
library's `removeElement` does. -/
def eRemove {V : Type} (core : ELru V) (k : Key) : Bool × ELru V :=
  match lookupItems core.items k with
  | none => (false, core)
  | some _ => (true, { core with items := removeItems core.items k })

/-- The in-place field assignment `v.value, v.err = fetch()` performed by
`ExpirationLRU.Get` on the shared slot pointer after the fetch returns. -/
def eSetItem {V : Type} (core : ELru V) (k : Key) (it : EItem V) : ELru V :=
  { core with items := core.items.map (fun p => if p.1 = k then (p.1, ⟨it, p.2.expiresAt⟩) else p) }

/-! ### The cache coordinator (package `localcache`) -/

/-- The `cache[V]` state: the optional linkage graph (`nil` when
`linkSlotNum` is zero), the optional local LRU (`nil` when local caching is
disabled), and the contents of the bounded `pendingDel` channel (capacity
100).  The model covers the active-expiry, single-shard configuration
(`localSlotNum = 1`, `expirationEvict = true`), the one whose shard LRU is
`ExpirationLRU`. -/
structure CState (V : Type) where
  link : Option Slot
  locl : Option (ELru V)
  pendingDel : List (List Key)
  deriving DecidableEq

/-- `cache.onEvict`: with linkage enabled, drain the evicted key's linkage
component, drop the key itself from the result, and enqueue the remainder
on the pending-deletion channel unless it is empty or the channel is full. -/
def Cache.onEvict {V : Type} (c : CState V) (key : Key) : CState V :=
  match c.link with
  | none => c
  | some l =>
    let r := Slot.Del l key
    let c' : CState V := { c with link := some r.2 }
    let keys := r.1.filter (fun z => z ≠ key)
    if keys.isEmpty then c'
    else if c'.pendingDel.length < 100 then { c' with pendingDel := c'.pendingDel ++ [keys] }
    else c'

/-- The `c.link.Link(key, link...)` call the wrapped fetcher makes on a miss. -/
def Cache.registerLink {V : Type} (c : CState V) (k : Key) (ls : List Key) : CState V :=
  { c with link := c.link.map (fun l => l.Link k ls) }

/-- Write the fetched item into the slot held by the local LRU. -/
def Cache.setLocal {V : Type} (c : CState V) (k : Key) (it : EItem V) : CState V :=
  { c with locl := c.locl.map (fun core => eSetItem core k it) }

/-- `x.core.Remove(key)` as wired in the coordinator: remove the key from
the local LRU and, when it was present, run `cache.onEvict` on it, exactly
as the library's `removeElement` invokes the registered callback. -/
def Cache.removeFire {V : Type} (c : CState V) (k : Key) : CState V × Bool :=
  match c.locl with
  | none => (c, false)
  | some core =>
    match eRemove core k with
    | (false, _) => (c, false)
    | (true, core') => (Cache.onEvict { c with locl := some core' } k, true)

/-- `ExpirationLRU.Del` as wired in the coordinator: `core.Remove` plus the
hit/miss report (the stats counters are not modelled). -/
def Cache.localDel {V : Type} (c : CState V) (k : Key) : CState V × Bool :=
  Cache.removeFire c k

/-- The result of one `Get` / `GetLink` call: the value and error returned
to the caller, whether the fetcher was invoked (in this sequential model the
fetcher runs at most once per call), and the state afterwards. -/
structure GetResult (V : Type) where
  value : V
  err : Option Err
  invoked : Bool
  state : CState V
  deriving DecidableEq

/-- `cache.GetLink` over the active-expiry local LRU.  With local caching
disabled the fetcher is called directly.  On a hit the cached pair is
returned without invoking the fetcher.  On a miss a pending slot is added
(evicting the oldest entry if the capacity bound is exceeded, which runs
`cache.onEvict` on the evicted key), the wrapped fetcher first registers the
links (only when links were supplied and linkage is enabled) and then
produces `fetch`; a nil error stores the value in the slot, a non-nil error
stores it and then removes the slot via `core.Remove`. -/
def Cache.GetLink {V : Type} [Inhabited V] (c : CState V) (now : Nat) (k : Key)
    (fetch : V × Option Err) (links : List Key) : GetResult V :=
  match c.locl with
  | none => ⟨fetch.1, fetch.2, true, c⟩
  | some core =>
    match eGet core now k with
    | (some it, core') => ⟨it.value, it.err, false, { c with locl := some core' }⟩
    | (none, _) =>
      let r1 := eAdd core now k ⟨default, none⟩
      let c1 : CState V := { c with locl := some r1.2 }
      let c2 := match r1.1 with
        | none => c1
        | some ek => Cache.onEvict c1 ek
      let c3 := if ¬ links.isEmpty ∧ c2.link.isSome then Cache.registerLink c2 k links else c2
      if fetch.2 = none then
        ⟨fetch.1, none, true, Cache.setLocal c3 k ⟨fetch.1, none⟩⟩
      else
        ⟨fetch.1, fetch.2, true, (Cache.removeFire (Cache.setLocal c3 k ⟨fetch.1, fetch.2⟩) k).1⟩

/-- `cache.Get`: `GetLink` with no links. -/
def Cache.Get {V : Type} [Inhabited V] (c : CState V) (now : Nat) (k : Key)
    (fetch : V × Option Err) : GetResult V :=
  Cache.GetLink c now k fetch []

/-- The worklist loop of `cache.del`: pop the head, skip already-deleted
keys, otherwise mark the key deleted, drain its linkage (when enabled)
appending the not-yet-deleted linked keys to the queue, and delete the key
from the local LRU.  Fuel dominates the loop for the same reason as in
`Slot.delGo`. -/
def Cache.delGo {V : Type} : CState V → List Key → List Key → Nat → CState V
  | c, _, _, 0 => c
  | c, [], _, _ + 1 => c
  | c, curr :: rest, deleted, fuel + 1 =>
    if curr ∈ deleted then Cache.delGo c rest deleted fuel
    else
      match c.link with
      | none => Cache.delGo (Cache.localDel c curr).1 rest (curr :: deleted) fuel
      | some l =>
        let r := Slot.Del l curr
        let appended := r.1.filter (fun z => ¬ z ∈ curr :: deleted)
        let c1 : CState V := { c with link := some r.2 }
        Cache.delGo (Cache.localDel c1 curr).1 (rest ++ appended) (curr :: deleted) fuel

/-- Fuel bound for `Cache.delGo`: the linkage weight plus the queue length. -/
def Cache.delFuel {V : Type} (c : CState V) (keys : List Key) : Nat :=
  (match c.link with | none => 0 | some l => Slot.weight l) + keys.length

/-- `cache.del`: returns immediately when local caching is disabled, else
runs the worklist loop on the input keys. -/
def Cache.del {V : Type} (c : CState V) (keys : List Key) : CState V :=
  match c.locl with
  | none => c
  | some _ => Cache.delGo c keys [] (Cache.delFuel c keys)

/-- `cache.Del`: runs the registered pre-delete hooks (external callables
that do not touch the cache state, hence absent from the model) and then the
cascade `cache.del`. -/
def Cache.Del {V : Type} (c : CState V) (keys : List Key) : CState V :=
  Cache.del c keys

/-- `localcache.New` in the modelled configuration: one active-expiry local
shard of the given capacity and TTL, linkage with `n` shards when `n > 0`,
an empty pending-deletion channel. -/
def newCache (V : Type) (n size ttl : Nat) : CState V :=
  { link := if 0 < n then some (newSlot n) else none
    locl := some { size := size, ttl := ttl, items := [] }
    pendingDel := [] }

/-! ### Item-table lemmas -/

theorem lookup_removeItems {V : Type} (l : List (Key × ELruEntry V)) (k a : Key) :
    lookupItems (removeItems l k) a = if a = k then none else lookupItems l a := by
  induction l with
  | nil => simp [removeItems, lookupItems]
  | cons p l ih =>
    rcases eq_or_ne p.1 k with hpk | hpk
    · rcases eq_or_ne a k with hak | hak
      · subst hak
        simp [removeItems, hpk]
        simpa using ih
      · simp [removeItems, lookupItems, hpk, hak, Ne.symm hak, ih]
    · rcases eq_or_ne p.1 a with hpa | hpa
      · have hak : a ≠ k := fun h => hpk (hpa.trans h)
        simp [removeItems, lookupItems, hpk, hpa, hak]
      · simp [removeItems, lookupItems, hpk, hpa, ih]

theorem removeItems_of_absent {V : Type} (l : List (Key × ELruEntry V)) (k : Key)
    (h : lookupItems l k = none) : removeItems l k = l := by
  induction l with
  | nil => rfl
  | cons p l ih =>
    rcases eq_or_ne p.1 k with hpk | hpk
    · simp [lookupItems, hpk] at h
    · simp only [lookupItems, if_neg hpk] at h
      simp [removeItems, hpk, ih h]

theorem lookup_mapUpdate_self {V : Type} (l : List (Key × ELruEntry V)) (k : Key)
    (it : EItem V) (e : ELruEntry V) (h : lookupItems l k = some e) :
    lookupItems (l.map (fun p => if p.1 = k then (p.1, ⟨it, p.2.expiresAt⟩) else p)) k =
      some ⟨it, e.expiresAt⟩ := by
  induction l with
  | nil => simp [lookupItems] at h
  | cons p l ih =>
    rcases eq_or_ne p.1 k with hpk | hpk
    · simp only [lookupItems, if_pos hpk] at h
      obtain rfl := Option.some_injective _ h
      simp [lookupItems, hpk]
    · simp only [lookupItems, if_neg hpk] at h
      simp [lookupItems, hpk, ih h]

theorem lookup_mapUpdate_other {V : Type} (l : List (Key × ELruEntry V)) (k a : Key)
    (it : EItem V) (h : a ≠ k) :
    lookupItems (l.map (fun p => if p.1 = k then (p.1, ⟨it, p.2.expiresAt⟩) else p)) a =
      lookupItems l a := by
  induction l with
  | nil => rfl
  | cons p l ih =>
    rcases eq_or_ne p.1 k with hpk | hpk
    · have hpa : p.1 ≠ a := fun hh => h (hh.symm.trans hpk)
      simp [lookupItems, hpk, hpa, Ne.symm h, ih]
    · simp only [List.map_cons, if_neg hpk]
      rcases eq_or_ne p.1 a with hpa | hpa
      · simp [lookupItems, hpa]
      · simp [lookupItems, hpa, ih]

theorem lookup_eSetItem_self {V : Type} (core : ELru V) (k : Key) (it : EItem V)
    (e : ELruEntry V) (h : lookupItems core.items k = some e) :
    lookupItems (eSetItem core k it).items k = some ⟨it, e.expiresAt⟩ :=
  lookup_mapUpdate_self core.items k it e h

theorem lookup_eSetItem_other {V : Type} (core : ELru V) (k a : Key) (it : EItem V)
    (h : a ≠ k) :
    lookupItems (eSetItem core k it).items a = lookupItems core.items a :=
  lookup_mapUpdate_other core.items k a it h

theorem eSetItem_ttl {V : Type} (core : ELru V) (k : Key) (it : EItem V) :
    (eSetItem core k it).ttl = core.ttl := rfl

/-- The new entry of a cold `Add` sits at the front afterwards with the
fresh deadline; capacity eviction removes the oldest entry, never the new
head; TTL and capacity are untouched. -/
theorem eAdd_cold {V : Type} (core : ELru V) (now : Nat) (k : Key) (it : EItem V)
    (h : lookupItems core.items k = none) :
    lookupItems (eAdd core now k it).2.items k = some ⟨it, now + core.ttl⟩ ∧
    (eAdd core now k it).2.ttl = core.ttl ∧
    (eAdd core now k it).2.size = core.size := by
  simp only [eAdd, h]
  by_cases hc : 0 < core.size ∧
      core.size < ((k, (⟨it, now + core.ttl⟩ : ELruEntry V)) :: core.items).length
  · rw [if_pos hc]
    refine ⟨?_, rfl, rfl⟩
    cases hi : core.items with
    | nil =>
      rw [hi] at hc
      simp at hc
      omega
    | cons q t =>
      simp [lookupItems]
  · rw [if_neg hc]
    exact ⟨by simp [lookupItems], rfl, rfl⟩

/-! ### Coordinator state lemmas -/

theorem cstate_link_eta {V : Type} (c : CState V) (l : Slot) (h : c.link = some l) :
    ({ c with link := some l } : CState V) = c := by
  rw [← h]

theorem cstate_locl_eta {V : Type} (c : CState V) (core : ELru V) (h : c.locl = some core) :
    ({ c with locl := some core } : CState V) = c := by
  rw [← h]

theorem onEvict_locl {V : Type} (c : CState V) (k : Key) :
    (Cache.onEvict c k).locl = c.locl := by
  cases hl : c.link with
  | none => simp [Cache.onEvict, hl]
  | some l =>
    simp only [Cache.onEvict, hl]
    split
    · rfl
    · split <;> rfl

theorem onEvict_link_shape {V : Type} (c : CState V) (k : Key) :
    (Cache.onEvict c k).link.isSome = c.link.isSome := by
  cases hl : c.link with
  | none => simp [Cache.onEvict, hl]
  | some l =>
    simp only [Cache.onEvict, hl]
    split
    · rfl
    · split <;> rfl

/-- When the evicted key's linkage entry is already gone, the callback is a
complete no-op: the drained set is the key alone, so nothing is enqueued. -/
theorem onEvict_drained {V : Type} (c : CState V) (l : Slot) (k : Key)
    (hl : c.link = some l) (he : l.entry k = none) :
    Cache.onEvict c k = c := by
  simp only [Cache.onEvict, hl, Del_absent l k he]
  simp only [List.filter_cons, List.filter_nil]
  simp only [decide_not, ne_eq, decide_True, Bool.not_true, Bool.false_eq_true, if_false]
  simp only [List.isEmpty_nil, if_true]
  exact cstate_link_eta c l hl

theorem registerLink_locl {V : Type} (c : CState V) (k : Key) (ls : List Key) :
    (Cache.registerLink c k ls).locl = c.locl := rfl

theorem registerLink_pendingDel {V : Type} (c : CState V) (k : Key) (ls : List Key) :
    (Cache.registerLink c k ls).pendingDel = c.pendingDel := rfl

theorem setLocal_link {V : Type} (c : CState V) (k : Key) (it : EItem V) :
    (Cache.setLocal c k it).link = c.link := rfl

theorem setLocal_pendingDel {V : Type} (c : CState V) (k : Key) (it : EItem V) :
    (Cache.setLocal c k it).pendingDel = c.pendingDel := rfl

theorem setLocal_locl {V : Type} (c : CState V) (core : ELru V) (k : Key) (it : EItem V)
    (h : c.locl = some core) :
    (Cache.setLocal c k it).locl = some (eSetItem core k it) := by
  simp [Cache.setLocal, h]

theorem removeFire_of_absent {V : Type} (c : CState V) (k : Key) (core : ELru V)
    (hl : c.locl = some core) (h : lookupItems core.items k = none) :
    Cache.removeFire c k = (c, false) := by
  simp only [Cache.removeFire, hl, eRemove, h]

theorem removeFire_of_present {V : Type} (c : CState V) (k : Key) (core : ELru V)
    (e : ELruEntry V) (hl : c.locl = some core) (h : lookupItems core.items k = some e) :
    Cache.removeFire c k =
      (Cache.onEvict { c with locl := some { core with items := removeItems core.items k } } k,
        true) := by
  simp only [Cache.removeFire, hl, eRemove, h]

/-! ### GetLink path lemmas -/

theorem GetLink_disabled {V : Type} [Inhabited V] (c : CState V) (now : Nat) (k : Key)
    (fetch : V × Option Err) (ls : List Key) (hl : c.locl = none) :
    Cache.GetLink c now k fetch ls = ⟨fetch.1, fetch.2, true, c⟩ := by
  simp [Cache.GetLink, hl]

theorem GetLink_hit {V : Type} [Inhabited V] (c : CState V) (core : ELru V)
    (now : Nat) (k : Key) (fetch : V × Option Err) (ls : List Key) (e : ELruEntry V)
    (hl : c.locl = some core) (hfound : lookupItems core.items k = some e)
    (hfresh : ¬ now > e.expiresAt) :
    Cache.GetLink c now k fetch ls =
      ⟨e.value.value, e.value.err, false,
        { c with locl := some { core with items := (k, e) :: removeItems core.items k } }⟩ := by
  simp only [Cache.GetLink, hl, eGet, hfound, if_neg hfresh]

theorem GetLink_miss_result {V : Type} [Inhabited V] (c : CState V) (core : ELru V)
    (now : Nat) (k : Key) (fetch : V × Option Err) (ls : List Key)
    (hl : c.locl = some core) (hcold : lookupItems core.items k = none) :
    (Cache.GetLink c now k fetch ls).value = fetch.1 ∧
    (Cache.GetLink c now k fetch ls).err = fetch.2 ∧
    (Cache.GetLink c now k fetch ls).invoked = true := by
  simp only [Cache.GetLink, hl, eGet, hcold]
  by_cases hf : fetch.2 = none
  · rw [if_pos hf]
    exact ⟨rfl, hf.symm, rfl⟩
  · rw [if_neg hf]
    exact ⟨rfl, rfl, rfl⟩

theorem GetLink_miss_state {V : Type} [Inhabited V] (c : CState V) (core : ELru V)
    (now : Nat) (k : Key) (fetch : V × Option Err) (ls : List Key)
    (hl : c.locl = some core) (hcold : lookupItems core.items k = none) :
    (Cache.GetLink c now k fetch ls).state =
      (let r1 := eAdd core now k (⟨default, none⟩ : EItem V)
       let c1 : CState V := { c with locl := some r1.2 }
       let c2 := match r1.1 with
         | none => c1
         | some ek => Cache.onEvict c1 ek
       let c3 := if ¬ ls.isEmpty ∧ c2.link.isSome then Cache.registerLink c2 k ls else c2
       if fetch.2 = none then Cache.setLocal c3 k ⟨fetch.1, none⟩
       else (Cache.removeFire (Cache.setLocal c3 k ⟨fetch.1, fetch.2⟩) k).1) := by
  simp only [Cache.GetLink, hl, eGet, hcold]
  by_cases hf : fetch.2 = none
  · rw [if_pos hf, if_pos hf]
  · rw [if_neg hf, if_neg hf]

theorem locl_after_evictOpt {V : Type} (c1 : CState V) (o : Option Key) :
    (match o with
      | none => c1
      | some ek => Cache.onEvict c1 ek).locl = c1.locl := by
  cases o with
  | none => rfl
  | some ek => exact onEvict_locl c1 ek

theorem locl_after_registerOpt {V : Type} (c2 : CState V) (k : Key) (ls : List Key) :
    (if ¬ ls.isEmpty ∧ c2.link.isSome then Cache.registerLink c2 k ls else c2).locl =
      c2.locl := by
  split
  · rfl
  · rfl

theorem lookup_mapUpdate_none {V : Type} (l : List (Key × ELruEntry V)) (k : Key)
    (it : EItem V) (h : lookupItems l k = none) :
    lookupItems (l.map (fun p => if p.1 = k then (p.1, ⟨it, p.2.expiresAt⟩) else p)) k =
      none := by
  induction l with
  | nil => rfl
  | cons p l ih =>
    rcases eq_or_ne p.1 k with hpk | hpk
    · simp [lookupItems, hpk] at h
    · simp only [lookupItems, if_neg hpk] at h
      simp [lookupItems, hpk, ih h]

theorem removeFire_setLocal_absent {V : Type} (c : CState V) (core : ELru V) (k : Key)
    (it : EItem V) (hl : c.locl = some core) :
    ∃ core1 : ELru V,
      (Cache.removeFire (Cache.setLocal c k it) k).1.locl = some core1 ∧
      lookupItems core1.items k = none := by
  have hsl := setLocal_locl c core k it hl
  cases hlook : lookupItems core.items k with
  | none =>
    have habs : lookupItems (eSetItem core k it).items k = none :=
      lookup_mapUpdate_none _ _ _ hlook
    rw [removeFire_of_absent (Cache.setLocal c k it) k (eSetItem core k it) hsl habs]
    exact ⟨eSetItem core k it, hsl, habs⟩
  | some e =>
    have hfound : lookupItems (eSetItem core k it).items k = some ⟨it, e.expiresAt⟩ :=
      lookup_eSetItem_self core k it e hlook
    rw [removeFire_of_present (Cache.setLocal c k it) k (eSetItem core k it) _ hsl hfound]
    refine ⟨{ eSetItem core k it with items := removeItems (eSetItem core k it).items k },
      ?_, ?_⟩
    · rw [onEvict_locl]
    · rw [lookup_removeItems]
      simp

theorem GetLink_err_state_absent {V : Type} [Inhabited V] (c : CState V) (core : ELru V)
    (now : Nat) (k : Key) (z : V) (e : Err) (ls : List Key)
    (hl : c.locl = some core) (hcold : lookupItems core.items k = none) :
    ∃ core1 : ELru V,
      (Cache.GetLink c now k (z, some e) ls).state.locl = some core1 ∧
      lookupItems core1.items k = none := by
  simp only [Cache.GetLink, hl, eGet, hcold]
  rw [if_neg (by simp)]
  exact removeFire_setLocal_absent _ (eAdd core now k (⟨default, none⟩ : EItem V)).2 k _
    (by rw [locl_after_registerOpt, locl_after_evictOpt])

theorem GetLink_ok_state {V : Type} [Inhabited V] (c : CState V) (core : ELru V)
    (now : Nat) (k : Key) (v : V) (ls : List Key)
    (hl : c.locl = some core) (hcold : lookupItems core.items k = none) :
    (Cache.GetLink c now k (v, none) ls).state.locl =
      some (eSetItem (eAdd core now k (⟨default, none⟩ : EItem V)).2 k ⟨v, none⟩) := by
  simp only [Cache.GetLink, hl, eGet, hcold]
  simp only [if_true]
  exact setLocal_locl _ (eAdd core now k (⟨default, none⟩ : EItem V)).2 k _
    (by rw [locl_after_registerOpt, locl_after_evictOpt])

/-! ### Claim theorems -/

/-- C1: sequential miss-then-hit memoization.  On a cache with local caching
enabled, capacity at least 1 and a cold slot for `k`, `get("k", fetch1)`
where `fetch1` returns `v` returns `v` with `fetch1` invoked, and an
immediately following `get("k", fetch2)` within the success TTL returns `v`
without invoking `fetch2`. -/
theorem C1_miss_then_hit {V : Type} [Inhabited V] (c : CState V) (core : ELru V)
    (now now2 : Nat) (k : Key) (v w : V) (e2 : Option Err)
    (hl : c.locl = some core) (hcap : 1 ≤ core.size)
    (hcold : lookupItems core.items k = none) (httl : now2 ≤ now + core.ttl) :
    (Cache.Get c now k (v, none)).value = v ∧
    (Cache.Get c now k (v, none)).err = none ∧
    (Cache.Get c now k (v, none)).invoked = true ∧
    (Cache.Get (Cache.Get c now k (v, none)).state now2 k (w, e2)).value = v ∧
    (Cache.Get (Cache.Get c now k (v, none)).state now2 k (w, e2)).err = none ∧
    (Cache.Get (Cache.Get c now k (v, none)).state now2 k (w, e2)).invoked = false := by
  obtain ⟨hAk, hAt, hAs⟩ := eAdd_cold core now k (⟨default, none⟩ : EItem V) hcold
  have h1 := GetLink_miss_result c core now k (v, none) [] hl hcold
  have hstate := GetLink_ok_state c core now k v [] hl hcold
  have hfound : lookupItems (eSetItem (eAdd core now k (⟨default, none⟩ : EItem V)).2 k
      ⟨v, none⟩).items k = some ⟨⟨v, none⟩, now + core.ttl⟩ := by
    have hh := lookup_eSetItem_self (eAdd core now k (⟨default, none⟩ : EItem V)).2 k
      (⟨v, none⟩ : EItem V) (⟨⟨default, none⟩, now + core.ttl⟩ : ELruEntry V) hAk
    simpa using hh
  have hfresh : ¬ now2 > (⟨⟨v, none⟩, now + core.ttl⟩ : ELruEntry V).expiresAt := by
    simp only [gt_iff_lt, not_lt]
    exact httl
  have h2 := GetLink_hit (Cache.Get c now k (v, none)).state
    (eSetItem (eAdd core now k (⟨default, none⟩ : EItem V)).2 k ⟨v, none⟩)
    now2 k (w, e2) [] (⟨⟨v, none⟩, now + core.ttl⟩ : ELruEntry V) hstate hfound hfresh
  refine ⟨h1.1, h1.2.1, h1.2.2, ?_, ?_, ?_⟩
  · rw [show Cache.Get (Cache.Get c now k (v, none)).state now2 k (w, e2) =
      Cache.GetLink (Cache.Get c now k (v, none)).state now2 k (w, e2) [] from rfl, h2]
  · rw [show Cache.Get (Cache.Get c now k (v, none)).state now2 k (w, e2) =
      Cache.GetLink (Cache.Get c now k (v, none)).state now2 k (w, e2) [] from rfl, h2]
  · rw [show Cache.Get (Cache.Get c now k (v, none)).state now2 k (w, e2) =
      Cache.GetLink (Cache.Get c now k (v, none)).state now2 k (w, e2) [] from rfl, h2]

/-- C1 witness: the theorem at a concrete input — a fresh cache of capacity
5, TTL 60, first get at time 0, second at time 60. -/
theorem C1_miss_then_hit_witness :
    ((newCache String 2 5 60).locl = some { size := 5, ttl := 60, items := [] } ∧
      1 ≤ (5 : Nat) ∧
      lookupItems ({ size := 5, ttl := 60, items := [] } : ELru String).items "k" = none ∧
      (60 : Nat) ≤ 0 + 60) ∧
    ((Cache.Get (newCache String 2 5 60) 0 "k" ("v", none)).value = "v" ∧
     (Cache.Get (newCache String 2 5 60) 0 "k" ("v", none)).err = none ∧
     (Cache.Get (newCache String 2 5 60) 0 "k" ("v", none)).invoked = true ∧
     (Cache.Get (Cache.Get (newCache String 2 5 60) 0 "k" ("v", none)).state 60 "k"
        ("w", some "E")).value = "v" ∧
     (Cache.Get (Cache.Get (newCache String 2 5 60) 0 "k" ("v", none)).state 60 "k"
        ("w", some "E")).err = none ∧
     (Cache.Get (Cache.Get (newCache String 2 5 60) 0 "k" ("v", none)).state 60 "k"
        ("w", some "E")).invoked = false) :=
  ⟨⟨by decide, by decide, by decide, by decide⟩,
    C1_miss_then_hit (newCache String 2 5 60) { size := 5, ttl := 60, items := [] }
      0 60 "k" "v" "w" (some "E") (by decide) (by decide) (by decide) (by decide)⟩

/-- C4: in active-expiry mode a fetch failure is not retained.  After
`get("k", fetch_err)` surfaces the error unchanged, the slot for `k` is
absent, and an immediately following `get("k", fetch_ok)` invokes the
fetcher and returns its value. -/
theorem C4_failure_not_retained {V : Type} [Inhabited V] (c : CState V) (core : ELru V)
    (now now2 : Nat) (k : Key) (z v : V) (e : Err)
    (hl : c.locl = some core) (hcold : lookupItems core.items k = none) :
    (Cache.Get c now k (z, some e)).err = some e ∧
    (∃ core1 : ELru V, (Cache.Get c now k (z, some e)).state.locl = some core1 ∧
      lookupItems core1.items k = none) ∧
    (Cache.Get (Cache.Get c now k (z, some e)).state now2 k (v, none)).value = v ∧
    (Cache.Get (Cache.Get c now k (z, some e)).state now2 k (v, none)).err = none ∧
    (Cache.Get (Cache.Get c now k (z, some e)).state now2 k (v, none)).invoked = true := by
  have h1 := GetLink_miss_result c core now k (z, some e) [] hl hcold
  obtain ⟨core1, hlocl, habs⟩ := GetLink_err_state_absent c core now k z e [] hl hcold
  have h2 := GetLink_miss_result (Cache.Get c now k (z, some e)).state core1 now2 k
    (v, none) [] hlocl habs
  exact ⟨h1.2.1, ⟨core1, hlocl, habs⟩, h2.1, h2.2.1, h2.2.2⟩

/-- C4 witness: the theorem at a concrete input — a fresh cache, a failing
fetch at time 0, a successful one right after. -/
theorem C4_failure_not_retained_witness :
    ((newCache String 2 5 60).locl = some { size := 5, ttl := 60, items := [] } ∧
      lookupItems ({ size := 5, ttl := 60, items := [] } : ELru String).items "k" = none) ∧
    ((Cache.Get (newCache String 2 5 60) 0 "k" ("z", some "ERR")).err = some "ERR" ∧
     (∃ core1 : ELru String,
        (Cache.Get (newCache String 2 5 60) 0 "k" ("z", some "ERR")).state.locl =
          some core1 ∧ lookupItems core1.items "k" = none) ∧
     (Cache.Get (Cache.Get (newCache String 2 5 60) 0 "k" ("z", some "ERR")).state 0 "k"
        ("v", none)).value = "v" ∧
     (Cache.Get (Cache.Get (newCache String 2 5 60) 0 "k" ("z", some "ERR")).state 0 "k"
        ("v", none)).err = none ∧
     (Cache.Get (Cache.Get (newCache String 2 5 60) 0 "k" ("z", some "ERR")).state 0 "k"
        ("v", none)).invoked = true) :=
  ⟨⟨by decide, by decide⟩,
    C4_failure_not_retained (newCache String 2 5 60) { size := 5, ttl := 60, items := [] }
      0 0 "k" "z" "v" "ERR" (by decide) (by decide)⟩

/-! ### Linkage operation sequences -/

/-- An operation callers can run against the linkage graph: a `Link` call or
a `Del` call. -/
inductive LinkOp where
  | addLink (k : Key) (ls : List Key)
  | remove (k : Key)

/-- Apply one operation to the graph. -/
def applyLinkOp (x : Slot) : LinkOp → Slot
  | .addLink k ls => x.Link k ls
  | .remove k => (x.Del k).2

/-- Run a sequence of graph operations from the freshly constructed
`link.New n` graph. -/
def runLinkOps (n : Nat) (ops : List LinkOp) : Slot :=
  ops.foldl applyLinkOp (newSlot n)

theorem getD_replicate_nil (n i : Nat) :
    (List.replicate n ([] : LinkData)).getD i [] = [] := by
  induction n generalizing i with
  | zero => cases i <;> rfl
  | succ m ih =>
    cases i with
    | zero => rfl
    | succ j => exact ih j

theorem newSlot_symm (n : Nat) : Slot.Symm (newSlot n) := by
  have hadj : ∀ k : Key, (newSlot n).adj k = [] := by
    intro k
    show ((lookupData ((List.replicate n []).getD _ []) k).getD []) = []
    rw [getD_replicate_nil]
    rfl
  intro a b
  rw [hadj a, hadj b]
  simp

/-- C7: linkage symmetry invariant.  Starting from the empty graph,
after every finite sequence of `Link` and `Del` operations the adjacency
mapping is symmetric: `b ∈ adj(a)` iff `a ∈ adj(b)`. -/
theorem C7_linkage_symmetry (n : Nat) (hn : 0 < n) (ops : List LinkOp) :
    Slot.Symm (runLinkOps n ops) := by
  have main : ∀ (l : List LinkOp) (x : Slot), Slot.Symm x →
      Slot.Symm (l.foldl applyLinkOp x) := by
    intro l
    induction l with
    | nil => intro x hx; exact hx
    | cons op tl ih =>
      intro x hx
      refine ih (applyLinkOp x op) ?_
      cases op with
      | addLink k ls => exact Link_symm x k ls hx
      | remove k => exact Del_symm x k hx
  exact main ops _ (newSlot_symm n)

/-- C7 witness: the theorem at a concrete sequence of operations on a
2-shard graph. -/
theorem C7_linkage_symmetry_witness :
    0 < 2 ∧ Slot.Symm (runLinkOps 2
      [LinkOp.addLink "a" ["b", "c"], LinkOp.addLink "b" ["d"], LinkOp.remove "b"]) :=
  ⟨by decide, C7_linkage_symmetry 2 (by decide)
    [LinkOp.addLink "a" ["b", "c"], LinkOp.addLink "b" ["d"], LinkOp.remove "b"]⟩

/-! ### C2: the linkage delete is transitive, not single-shard -/

/-- A three-key chain `a – b – c`: `Link("a", "b")` then `Link("b", "c")`
on a three-shard graph. -/
def chainABC : Slot := ((newSlot 3).Link "a" ["b"]).Link "b" ["c"]

/-- C2 counterexample: the claim says `Del("a")` returns exactly the direct
neighbours `adj("a")` and removes no other key's adjacency entry.  On the
chain `a – b – c`, `adj("a") = ["b"]`, yet `Del("a")` returns a set
containing `"c"` and removes `"b"`'s own adjacency entry. -/
theorem C2_counterexample :
    chainABC.adj "a" = ["b"] ∧
    "c" ∈ (Slot.Del chainABC "a").1 ∧
    "c" ∉ chainABC.adj "a" ∧
    (Slot.Del chainABC "a").2.entry "b" = none ∧
    chainABC.entry "b" ≠ none := by decide

/-- C2 amended: the single-shard contract the claim describes holds of the
per-shard primitive `linkKey.del` (reached through `slot.delKey` as
`Slot.delAt`), not of the graph-level `slot.Del`: it reads and returns
exactly `adj(k)`, removes only `k`'s own adjacency entry, and touches no
other shard.  The graph-level `Del` composes this primitive into a
transitive walk and returns the whole visited closure, as the
counterexample shows. -/
theorem C2_amended_single_shard_primitive (x : Slot) (k a : Key) (j : Nat)
    (ha : a ≠ k) (hj : j ≠ x.index k) :
    (x.delAt k).1 = x.entry k ∧
    (x.delAt k).2.entry k = none ∧
    (x.delAt k).2.entry a = x.entry a ∧
    (x.delAt k).2.slots.getD j [] = x.slots.getD j [] := by
  refine ⟨delAt_fst x k, ?_, ?_, ?_⟩
  · rw [entry_delAt]
    simp
  · rw [entry_delAt]
    simp [ha]
  · cases h : lookupData (x.slots.getD (x.index k) []) k with
    | none => rw [delAt_of_entry_none x k h]
    | some cs =>
      have hrepr : x.delAt k = (some cs, ⟨x.slots.set (x.index k)
          (removeData (x.slots.getD (x.index k) []) k)⟩) := by
        show (match lookupData (x.slots.getD (x.index k) []) k with
          | none => (none, x)
          | some ks => (some ks, (⟨x.slots.set (x.index k)
              (removeData (x.slots.getD (x.index k) []) k)⟩ : Slot))) = _
        rw [show lookupData (x.slots.getD (x.index k) []) k = some cs from h]
      rw [hrepr]
      exact getD_set_ne _ _ _ _ _ hj

/-- C2 amended witness: the primitive at a concrete input on the chain. -/
theorem C2_amended_single_shard_primitive_witness :
    ("b" ≠ "a" ∧ chainABC.index "a" + 1 ≠ chainABC.index "a") ∧
    ((chainABC.delAt "a").1 = chainABC.entry "a" ∧
     (chainABC.delAt "a").2.entry "a" = none ∧
     (chainABC.delAt "a").2.entry "b" = chainABC.entry "b" ∧
     (chainABC.delAt "a").2.slots.getD (chainABC.index "a" + 1) [] =
       chainABC.slots.getD (chainABC.index "a" + 1) []) :=
  ⟨⟨by decide, by omega⟩,
    C2_amended_single_shard_primitive chainABC "a" "b" (chainABC.index "a" + 1)
      (by decide) (by omega)⟩

/-! ### C6: deleting an absent key -/

/-- C6 counterexample: the claim says linkage delete of an absent key
returns the empty set; `slot.Del` on a fresh graph returns the singleton
holding the key itself. -/
theorem C6_counterexample :
    ((newSlot 3).Del "nope").1 = ["nope"] ∧ ((newSlot 3).Del "nope").1 ≠ [] := by decide

/-- C6 amended: deleting a key with no adjacency entry in any shard is
benign — it signals no failure and leaves the graph unchanged — but the
removed set it returns is the singleton of the key itself, not the empty
set (`delKey` records the key as visited before consulting its shard;
the per-shard `linkKey.del` is the one that returns nil). -/
theorem C6_amended_absent_benign (x : Slot) (k : Key)
    (h : ∀ d ∈ x.slots, lookupData d k = none) :
    Slot.Del x k = ([k], x) := by
  apply Del_absent
  rcases Nat.eq_zero_or_pos x.slots.length with h0 | h0
  · have hnil : x.slots = [] := List.length_eq_zero.mp h0
    show lookupData (x.slots.getD (x.index k) []) k = none
    rw [hnil]
    cases hi : Slot.index ⟨[]⟩ k <;> rfl
  · show lookupData (x.slots.getD (x.index k) []) k = none
    have hi := index_lt x k h0
    have hmem : x.slots.getD (x.index k) [] ∈ x.slots := by
      rw [List.getD_eq_getElem?_getD, List.getElem?_eq_getElem hi]
      exact List.getElem_mem hi
    exact h _ hmem

/-- C6 amended witness: the theorem on a fresh 3-shard graph. -/
theorem C6_amended_absent_benign_witness :
    (∀ d ∈ (newSlot 3).slots, lookupData d "nope" = none) ∧
    Slot.Del (newSlot 3) "nope" = (["nope"], newSlot 3) :=
  ⟨by decide, C6_amended_absent_benign (newSlot 3) "nope" (by decide)⟩

/-! ### C3: transitive cascade -/

/-- The chain graph of the cascade scenario: `Link("a","b")`, `Link("b","c")`,
`Link("c","d")` on a three-shard graph. -/
def cascadeGraph : Slot := (((newSlot 3).Link "a" ["b"]).Link "b" ["c"]).Link "c" ["d"]

/-- A resident successful entry holding `v`, deadline 100. -/
def entryOf (v : String) : ELruEntry String := ⟨⟨v, none⟩, 100⟩

/-- The cascade scenario's cache: the chain linkage, all four keys resident. -/
def cascadeState : CState String :=
  { link := some cascadeGraph
    locl := some { size := 10, ttl := 60, items :=
      [("a", entryOf "va"), ("b", entryOf "vb"), ("c", entryOf "vc"), ("d", entryOf "vd")] }
    pendingDel := [] }

/-- C3: transitive cascade.  With linkage enabled and links established by
`link(a,b)`, `link(b,c)`, `link(c,d)`, a single coordinator `delete(a)`
removes all of `a`, `b`, `c`, `d` from the local LRU: a subsequent get on
any of them misses and re-invokes its fetcher. -/
theorem C3_transitive_cascade :
    (Cache.del cascadeState ["a"]).locl = some { size := 10, ttl := 60, items := [] } ∧
    (Cache.Get (Cache.del cascadeState ["a"]) 5 "a" ("w", none)).invoked = true ∧
    (Cache.Get (Cache.del cascadeState ["a"]) 5 "b" ("w", none)).invoked = true ∧
    (Cache.Get (Cache.del cascadeState ["a"]) 5 "c" ("w", none)).invoked = true ∧
    (Cache.Get (Cache.del cascadeState ["a"]) 5 "d" ("w", none)).invoked = true := by
  decide

/-! ### C5: explicit delete and the eviction callback -/

/-- The state refuting C5: an active-mode cache with `"k"` resident in the
local LRU and linked to `"m"` in the linkage graph. -/
def evictDemo : CState String :=
  { link := some ((newSlot 2).Link "k" ["m"])
    locl := some { size := 10, ttl := 60, items := [("k", ⟨⟨"vk", none⟩, 100⟩)] }
    pendingDel := [] }

/-- C5 counterexample: an explicit shard-LRU delete of a present key does
fire the eviction callback — the underlying expirable LRU invokes it from
`Remove` — so the coordinator's `onEvict` runs, drains the key's linkage and
enqueues the neighbour on the pending-deletion channel. -/
theorem C5_counterexample :
    (Cache.localDel evictDemo "k").2 = true ∧
    evictDemo.pendingDel = [] ∧
    (Cache.localDel evictDemo "k").1.pendingDel = [["m"]] ∧
    (Cache.localDel evictDemo "k").1.link ≠ evictDemo.link := by decide

theorem cacheDelGo_zero {V : Type} (c : CState V) (q d : List Key) :
    Cache.delGo c q d 0 = c := by
  cases q <;> rfl

theorem cacheDelGo_nilq {V : Type} (c : CState V) (d : List Key) (f : Nat) :
    Cache.delGo c [] d f = c := by
  cases f <;> rfl

theorem cacheDelGo_step {V : Type} (c : CState V) (curr : Key)
    (rest deleted : List Key) (fuel : Nat) :
    Cache.delGo c (curr :: rest) deleted (fuel + 1) =
      if curr ∈ deleted then Cache.delGo c rest deleted fuel
      else
        match c.link with
        | none => Cache.delGo (Cache.localDel c curr).1 rest (curr :: deleted) fuel
        | some l =>
          Cache.delGo (Cache.localDel { c with link := some (Slot.Del l curr).2 } curr).1
            (rest ++ (Slot.Del l curr).1.filter (fun z => ¬ z ∈ curr :: deleted))
            (curr :: deleted) fuel := rfl

theorem onEvict_link_none {V : Type} (c : CState V) (k : Key) (h : c.link = none) :
    Cache.onEvict c k = c := by
  simp [Cache.onEvict, h]

theorem localDel_pendingDel {V : Type} (c : CState V) (k : Key)
    (h : ∀ l : Slot, c.link = some l → l.entry k = none) :
    (Cache.localDel c k).1.pendingDel = c.pendingDel := by
  rw [Cache.localDel]
  cases hl : c.locl with
  | none =>
    simp only [Cache.removeFire, hl]
  | some core =>
    cases hlook : lookupItems core.items k with
    | none => rw [removeFire_of_absent c k core hl hlook]
    | some e =>
      rw [removeFire_of_present c k core e hl hlook]
      cases hlink : c.link with
      | none =>
        rw [onEvict_link_none _ _ rfl]
      | some l =>
        rw [onEvict_drained _ l _ rfl (h l hlink)]

theorem cacheDelGo_pendingDel {V : Type} (fuel : Nat) :
    ∀ (c : CState V) (q d : List Key),
      (Cache.delGo c q d fuel).pendingDel = c.pendingDel := by
  induction fuel with
  | zero =>
    intro c q d
    rw [cacheDelGo_zero]
  | succ fuel ih =>
    intro c q d
    cases q with
    | nil => rw [cacheDelGo_nilq]
    | cons curr rest =>
      rw [cacheDelGo_step]
      by_cases hc : curr ∈ d
      · rw [if_pos hc]
        exact ih c rest d
      · rw [if_neg hc]
        cases hlink : c.link with
        | none =>
          rw [ih]
          exact localDel_pendingDel c curr (by intro l hll; rw [hlink] at hll; cases hll)
        | some l =>
          rw [ih]
          have hpd : ({ c with link := some (Slot.Del l curr).2 } : CState V).pendingDel =
              c.pendingDel := rfl
          rw [← hpd]
          apply localDel_pendingDel
          intro l2 hll
          have : (Slot.Del l curr).2 = l2 := by
            simpa using hll
          rw [← this]
          exact Del_entry_self l curr

/-- C5 amended: in active-expiry mode the shard LRU's explicit delete of a
present key does invoke the eviction callback (the backing expirable LRU
fires it from `Remove`, and the repository's own comment in `cache.del`
anticipates this); but on the coordinator's explicit delete path the linkage
of each key is drained before the LRU delete, so every callback fired during
`cache.del` observes an empty neighbour set and enqueues nothing: the
pending-deletion channel is unchanged by an explicit coordinator delete. -/
theorem C5_amended_explicit_delete_enqueues_nothing {V : Type} (c : CState V)
    (keys : List Key) :
    (Cache.del c keys).pendingDel = c.pendingDel := by
  cases hl : c.locl with
  | none => simp [Cache.del, hl]
  | some core =>
    simp only [Cache.del, hl]
    exact cacheDelGo_pendingDel _ c keys []

/-! ### C8: cascade idempotence -/

/-- A key the cascade has fully retired: no linkage entry (when linkage is
enabled) and no resident LRU slot (when the local LRU is enabled). -/
def DeadKey {V : Type} (c : CState V) (a : Key) : Prop :=
  (∀ l : Slot, c.link = some l → l.entry a = none) ∧
  (∀ core : ELru V, c.locl = some core → lookupItems core.items a = none)

theorem onEvict_some_fields {V : Type} (c : CState V) (l : Slot) (k : Key)
    (hl : c.link = some l) :
    (Cache.onEvict c k).link = some (Slot.Del l k).2 ∧
    (Cache.onEvict c k).locl = c.locl := by
  simp only [Cache.onEvict, hl]
  split
  · exact ⟨rfl, rfl⟩
  · split
    · exact ⟨rfl, rfl⟩
    · exact ⟨rfl, rfl⟩

theorem onEvict_dead {V : Type} (c : CState V) (k a : Key) (h : DeadKey c a) :
    DeadKey (Cache.onEvict c k) a := by
  obtain ⟨h1, h2⟩ := h
  cases hl : c.link with
  | none =>
    rw [onEvict_link_none _ _ hl]
    exact ⟨h1, h2⟩
  | some l =>
    obtain ⟨hfl, hfo⟩ := onEvict_some_fields c l k hl
    refine ⟨?_, ?_⟩
    · intro l2 hl2
      rw [hfl] at hl2
      obtain rfl := Option.some.inj hl2
      exact Del_entry_none_mono l k a (h1 l hl)
    · intro core hc
      rw [hfo] at hc
      exact h2 core hc

theorem localDel_dead {V : Type} (c : CState V) (k a : Key) (h : DeadKey c a) :
    DeadKey (Cache.localDel c k).1 a := by
  rw [Cache.localDel]
  cases hl : c.locl with
  | none =>
    simp only [Cache.removeFire, hl]
    exact h
  | some core =>
    cases hlook : lookupItems core.items k with
    | none =>
      rw [removeFire_of_absent c k core hl hlook]
      exact h
    | some e =>
      rw [removeFire_of_present c k core e hl hlook]
      apply onEvict_dead
      obtain ⟨h1, h2⟩ := h
      refine ⟨?_, ?_⟩
      · intro l hll
        exact h1 l hll
      · intro core2 hc2
        obtain rfl := Option.some.inj hc2
        rw [lookup_removeItems]
        rcases eq_or_ne a k with hak | hak
        · simp [hak]
        · simp only [if_neg hak]
          exact h2 core hl

theorem localDel_absent_self {V : Type} (c : CState V) (k : Key) :
    ∀ core : ELru V, (Cache.localDel c k).1.locl = some core →
      lookupItems core.items k = none := by
  rw [Cache.localDel]
  cases hl : c.locl with
  | none =>
    simp only [Cache.removeFire, hl]
    intro core hc
    exact Option.noConfusion hc
  | some core0 =>
    cases hlook : lookupItems core0.items k with
    | none =>
      rw [removeFire_of_absent c k core0 hl hlook]
      intro core hc
      have hc' : c.locl = some core := hc
      rw [hl] at hc'
      obtain rfl := Option.some.inj hc'
      exact hlook
    | some e =>
      rw [removeFire_of_present c k core0 e hl hlook]
      intro core hc
      rw [onEvict_locl] at hc
      obtain rfl := Option.some.inj hc
      rw [lookup_removeItems]
      simp

theorem localDel_makes_dead {V : Type} (c : CState V) (k : Key)
    (hlink : ∀ l : Slot, c.link = some l → l.entry k = none) :
    DeadKey (Cache.localDel c k).1 k := by
  refine ⟨?_, localDel_absent_self c k⟩
  rw [Cache.localDel]
  cases hl : c.locl with
  | none =>
    simp only [Cache.removeFire, hl]
    exact hlink
  | some core =>
    cases hlook : lookupItems core.items k with
    | none =>
      rw [removeFire_of_absent c k core hl hlook]
      exact hlink
    | some e =>
      rw [removeFire_of_present c k core e hl hlook]
      intro l2 hll
      cases hxl : c.link with
      | none =>
        rw [hxl] at hll
        rw [onEvict_link_none _ _ rfl] at hll
        exact Option.noConfusion hll
      | some l =>
        rw [hxl] at hll
        rw [(onEvict_some_fields _ l k rfl).1] at hll
        obtain rfl := Option.some.inj hll
        exact Del_entry_self l k

theorem cacheDelGo_dead {V : Type} (fuel : Nat) :
    ∀ (c : CState V) (q d : List Key) (a : Key), DeadKey c a →
      DeadKey (Cache.delGo c q d fuel) a := by
  induction fuel with
  | zero =>
    intro c q d a h
    rw [cacheDelGo_zero]
    exact h
  | succ fuel ih =>
    intro c q d a h
    cases q with
    | nil =>
      rw [cacheDelGo_nilq]
      exact h
    | cons curr rest =>
      rw [cacheDelGo_step]
      by_cases hc : curr ∈ d
      · rw [if_pos hc]
        exact ih c rest d a h
      · rw [if_neg hc]
        cases hlink : c.link with
        | none =>
          exact ih _ _ _ a (localDel_dead c curr a h)
        | some l =>
          refine ih _ _ _ a (localDel_dead _ curr a ?_)
          refine ⟨?_, ?_⟩
          · intro l2 hll
            obtain rfl := Option.some.inj hll
            exact Del_entry_none_mono l curr a (h.1 l hlink)
          · intro core hcc
            exact h.2 core hcc

theorem localDel_locl_isSome {V : Type} (c : CState V) (k : Key) :
    (Cache.localDel c k).1.locl.isSome = c.locl.isSome := by
  rw [Cache.localDel]
  cases hl : c.locl with
  | none => simp only [Cache.removeFire, hl]
  | some core =>
    cases hlook : lookupItems core.items k with
    | none => rw [removeFire_of_absent c k core hl hlook, hl]
    | some e =>
      rw [removeFire_of_present c k core e hl hlook]
      simp [onEvict_locl, hl]

theorem cacheDelGo_locl_isSome {V : Type} (fuel : Nat) :
    ∀ (c : CState V) (q d : List Key),
      (Cache.delGo c q d fuel).locl.isSome = c.locl.isSome := by
  induction fuel with
  | zero =>
    intro c q d
    rw [cacheDelGo_zero]
  | succ fuel ih =>
    intro c q d
    cases q with
    | nil => rw [cacheDelGo_nilq]
    | cons curr rest =>
      rw [cacheDelGo_step]
      by_cases hc : curr ∈ d
      · rw [if_pos hc]
        exact ih c rest d
      · rw [if_neg hc]
        cases hlink : c.link with
        | none =>
          rw [ih, localDel_locl_isSome]
        | some l =>
          rw [ih, localDel_locl_isSome]

theorem cacheDel_estab {V : Type} (c : CState V) (a : Key) (core : ELru V)
    (hl : c.locl = some core) :
    DeadKey (Cache.del c [a]) a := by
  simp only [Cache.del, hl]
  cases hlink : c.link with
  | none =>
    have hf : Cache.delFuel c [a] = 0 + 1 := by simp [Cache.delFuel, hlink]
    rw [hf, cacheDelGo_step, if_neg (List.not_mem_nil a), hlink]
    show DeadKey (Cache.delGo (Cache.localDel c a).1 [] [a] 0) a
    rw [cacheDelGo_zero]
    exact localDel_makes_dead c a (by intro l hll; rw [hlink] at hll; cases hll)
  | some l =>
    have hf : Cache.delFuel c [a] = Slot.weight l + 1 := by simp [Cache.delFuel, hlink]
    rw [hf, cacheDelGo_step, if_neg (List.not_mem_nil a), hlink]
    show DeadKey (Cache.delGo
      (Cache.localDel { c with link := some (Slot.Del l a).2 } a).1
      ([] ++ (Slot.Del l a).1.filter (fun z => ¬ z ∈ [a])) [a] (Slot.weight l)) a
    apply cacheDelGo_dead
    apply localDel_makes_dead
    intro l2 hll
    obtain rfl := Option.some.inj hll
    exact Del_entry_self l a

theorem cacheDel_dead_id {V : Type} (c : CState V) (a : Key) (core : ELru V)
    (hl : c.locl = some core) (hdead : DeadKey c a) :
    Cache.del c [a] = c := by
  simp only [Cache.del, hl]
  cases hlink : c.link with
  | none =>
    have hf : Cache.delFuel c [a] = 0 + 1 := by simp [Cache.delFuel, hlink]
    rw [hf, cacheDelGo_step, if_neg (List.not_mem_nil a), hlink]
    show Cache.delGo (Cache.localDel c a).1 [] [a] 0 = c
    rw [cacheDelGo_zero, Cache.localDel,
      removeFire_of_absent c a core hl (hdead.2 core hl)]
  | some l =>
    have hent : l.entry a = none := hdead.1 l hlink
    have hf : Cache.delFuel c [a] = Slot.weight l + 1 := by simp [Cache.delFuel, hlink]
    rw [hf, cacheDelGo_step, if_neg (List.not_mem_nil a), hlink]
    show Cache.delGo (Cache.localDel { c with link := some (Slot.Del l a).2 } a).1
      ([] ++ (Slot.Del l a).1.filter (fun z => ¬ z ∈ [a])) [a] (Slot.weight l) = c
    rw [Del_absent l a hent]
    show Cache.delGo (Cache.localDel { c with link := some l } a).1
      ([] ++ ([a] : List Key).filter (fun z => ¬ z ∈ [a])) [a] (Slot.weight l) = c
    rw [cstate_link_eta c l hlink]
    have hfil : (([a] : List Key).filter (fun z => ¬ z ∈ [a])) = [] := by
      simp
    rw [hfil, Cache.localDel, removeFire_of_absent c a core hl (hdead.2 core hl)]
    show Cache.delGo c [] [a] (Slot.weight l) = c
    rw [cacheDelGo_nilq]

/-- C8: cascade idempotence.  For every key `a` and every cache state,
running the coordinator's `delete(a)` twice in succession, or a single
`delete(a, a)` with the key duplicated in the batch, leaves the cache
(resident LRU entries, linkage graph and pending-deletion queue alike) in
the same state as a single `delete(a)`. -/
theorem C8_cascade_idempotence {V : Type} (c : CState V) (a : Key) :
    Cache.del (Cache.del c [a]) [a] = Cache.del c [a] ∧
    Cache.del c [a, a] = Cache.del c [a] := by
  constructor
  · cases hl : c.locl with
    | none =>
      have h1 : Cache.del c [a] = c := by simp [Cache.del, hl]
      rw [h1, h1]
    | some core =>
      have hdead := cacheDel_estab c a core hl
      have hsome : (Cache.del c [a]).locl.isSome = true := by
        cases hl2 : c.locl with
        | none => rw [hl] at hl2; cases hl2
        | some core2 =>
          simp only [Cache.del, hl2]
          rw [cacheDelGo_locl_isSome, hl2]
          rfl
      obtain ⟨core', hcore'⟩ := Option.isSome_iff_exists.mp hsome
      exact cacheDel_dead_id (Cache.del c [a]) a core' hcore' hdead
  · cases hl : c.locl with
    | none => simp [Cache.del, hl]
    | some core =>
      simp only [Cache.del, hl]
      cases hlink : c.link with
      | none =>
        have hf2 : Cache.delFuel c [a, a] = 0 + 1 + 1 := by simp [Cache.delFuel, hlink]
        have hf1 : Cache.delFuel c [a] = 0 + 1 := by simp [Cache.delFuel, hlink]
        rw [hf1, hf2]
        have e1 : Cache.delGo c [a, a] [] (0 + 1 + 1) =
            Cache.delGo (Cache.localDel c a).1 [a] [a] (0 + 1) := by
          rw [cacheDelGo_step, if_neg (List.not_mem_nil a), hlink]
        have e2 : Cache.delGo (Cache.localDel c a).1 [a] [a] (0 + 1) =
            Cache.delGo (Cache.localDel c a).1 [] [a] 0 := by
          rw [cacheDelGo_step, if_pos (by simp : a ∈ [a])]
        have e3 : Cache.delGo c [a] [] (0 + 1) =
            Cache.delGo (Cache.localDel c a).1 [] [a] 0 := by
          rw [cacheDelGo_step, if_neg (List.not_mem_nil a), hlink]
        rw [e1, e2, e3]
      | some l =>
        have hf2 : Cache.delFuel c [a, a] = Slot.weight l + 1 + 1 := by
          simp [Cache.delFuel, hlink]
        have hf1 : Cache.delFuel c [a] = Slot.weight l + 1 := by
          simp [Cache.delFuel, hlink]
        rw [hf1, hf2]
        have e1 : Cache.delGo c [a, a] [] (Slot.weight l + 1 + 1) =
            Cache.delGo (Cache.localDel { c with link := some (Slot.Del l a).2 } a).1
              ([a] ++ (Slot.Del l a).1.filter (fun z => ¬ z ∈ [a])) [a]
              (Slot.weight l + 1) := by
          rw [cacheDelGo_step, if_neg (List.not_mem_nil a), hlink]
        have e2 : Cache.delGo (Cache.localDel { c with link := some (Slot.Del l a).2 } a).1
            ([a] ++ (Slot.Del l a).1.filter (fun z => ¬ z ∈ [a])) [a]
            (Slot.weight l + 1) =
            Cache.delGo (Cache.localDel { c with link := some (Slot.Del l a).2 } a).1
              ((Slot.Del l a).1.filter (fun z => ¬ z ∈ [a])) [a] (Slot.weight l) := by
          rw [List.singleton_append, cacheDelGo_step, if_pos (by simp : a ∈ [a])]
        have e3 : Cache.delGo c [a] [] (Slot.weight l + 1) =
            Cache.delGo (Cache.localDel { c with link := some (Slot.Del l a).2 } a).1
              ([] ++ (Slot.Del l a).1.filter (fun z => ¬ z ∈ [a])) [a]
              (Slot.weight l) := by
          rw [cacheDelGo_step, if_neg (List.not_mem_nil a), hlink]
        rw [e1, e2, e3, List.nil_append]

/-! ### C9: disabled linkage is inert -/

theorem eAdd_cold_frame {V : Type} (core : ELru V) (now : Nat) (k b : Key) (it : EItem V)
    (hcold : lookupItems core.items k = none)
    (hnoev : ¬ (0 < core.size ∧ core.size < core.items.length + 1))
    (hb : b ≠ k) :
    lookupItems (eAdd core now k it).2.items b = lookupItems core.items b := by
  simp only [eAdd, hcold]
  rw [if_neg (by simpa using hnoev)]
  simp [lookupItems, Ne.symm hb]

theorem GetLink_miss_ok_state_nolink {V : Type} [Inhabited V] (c : CState V)
    (core : ELru V) (now : Nat) (k : Key) (v : V) (ls : List Key)
    (hlink : c.link = none) (hl : c.locl = some core)
    (hcold : lookupItems core.items k = none) :
    (Cache.GetLink c now k (v, none) ls).state =
      Cache.setLocal { c with locl := some (eAdd core now k (⟨default, none⟩ : EItem V)).2 }
        k ⟨v, none⟩ := by
  simp only [Cache.GetLink, hl, eGet, hcold, if_true]
  cases hev : (eAdd core now k (⟨default, none⟩ : EItem V)).1 with
  | none =>
    simp only [hev]
    simp [hlink]
  | some ek =>
    simp only [hev]
    rw [onEvict_link_none
      ({ c with locl := some (eAdd core now k (⟨default, none⟩ : EItem V)).2 } : CState V)
      ek hlink]
    simp [hlink]

theorem del_single_link_none {V : Type} (c : CState V) (a : Key) (core : ELru V)
    (hlink : c.link = none) (hl : c.locl = some core) :
    Cache.del c [a] =
      { c with locl := some { core with items := removeItems core.items a } } := by
  obtain ⟨cl, co, pd⟩ := c
  have hcl : cl = none := hlink
  have hco : co = some core := hl
  subst hcl
  subst hco
  simp only [Cache.del]
  have hf : Cache.delFuel
      ({ link := none, locl := some core, pendingDel := pd } : CState V) [a] = 0 + 1 := by
    simp [Cache.delFuel]
  rw [hf, cacheDelGo_step, if_neg (List.not_mem_nil a)]
  show Cache.delGo (Cache.localDel
    ({ link := none, locl := some core, pendingDel := pd } : CState V) a).1 [] [a] 0 = _
  rw [cacheDelGo_zero, Cache.localDel]
  cases hlook : lookupItems core.items a with
  | none =>
    rw [removeFire_of_absent _ a core rfl hlook,
      removeItems_of_absent core.items a hlook]
  | some e =>
    rw [removeFire_of_present _ a core e rfl hlook, onEvict_link_none _ a rfl]

/-- The cache state after the C9 scenario: `get-with-links(a, fetch, b, d)`
followed by `delete(a)`. -/
def c9After {V : Type} [Inhabited V] (c : CState V) (now : Nat) (a b d : Key)
    (va : V) : CState V :=
  Cache.del (Cache.GetLink c now a (va, none) [b, d]).state [a]

/-- C9: disabled linkage is inert.  With `linkage-shard-count = 0` (the
linkage graph is nil), `get-with-links(a, _, b, d)` followed by `delete(a)`
removes only `a`: the cached entries for `b` and `d` remain untouched, and
subsequent gets for them hit without invoking their fetchers. -/
theorem C9_disabled_linkage {V : Type} [Inhabited V] (c : CState V) (core : ELru V)
    (now now2 : Nat) (a b d : Key) (va : V) (wa wb wd : V × Option Err)
    (eb ed : ELruEntry V)
    (hlink : c.link = none) (hl : c.locl = some core)
    (hcolda : lookupItems core.items a = none)
    (hnoev : ¬ (0 < core.size ∧ core.size < core.items.length + 1))
    (hb : b ≠ a) (hd : d ≠ a)
    (heb : lookupItems core.items b = some eb)
    (hed : lookupItems core.items d = some ed)
    (hfreshb : ¬ now2 > eb.expiresAt) (hfreshd : ¬ now2 > ed.expiresAt) :
    (Cache.GetLink (c9After c now a b d va) now2 a wa []).invoked = true ∧
    (Cache.GetLink (c9After c now a b d va) now2 b wb []).invoked = false ∧
    (Cache.GetLink (c9After c now a b d va) now2 b wb []).value = eb.value.value ∧
    (Cache.GetLink (c9After c now a b d va) now2 d wd []).invoked = false ∧
    (Cache.GetLink (c9After c now a b d va) now2 d wd []).value = ed.value.value := by
  have hstate := GetLink_miss_ok_state_nolink c core now a va [b, d] hlink hl hcolda
  have hlocl1 : (Cache.GetLink c now a (va, none) [b, d]).state.locl =
      some (eSetItem (eAdd core now a (⟨default, none⟩ : EItem V)).2 a ⟨va, none⟩) := by
    rw [hstate]
    exact setLocal_locl _ _ a _ rfl
  have hlink1 : (Cache.GetLink c now a (va, none) [b, d]).state.link = none := by
    rw [hstate, setLocal_link]
    exact hlink
  have hdel := del_single_link_none (Cache.GetLink c now a (va, none) [b, d]).state a _
    hlink1 hlocl1
  have hlocl2 : (c9After c now a b d va).locl =
      some { (eSetItem (eAdd core now a (⟨default, none⟩ : EItem V)).2 a ⟨va, none⟩) with
        items := removeItems (eSetItem (eAdd core now a
          (⟨default, none⟩ : EItem V)).2 a ⟨va, none⟩).items a } := by
    rw [show c9After c now a b d va =
      Cache.del (Cache.GetLink c now a (va, none) [b, d]).state [a] from rfl, hdel]
  have hlb : lookupItems (removeItems (eSetItem (eAdd core now a
      (⟨default, none⟩ : EItem V)).2 a ⟨va, none⟩).items a) b = some eb := by
    rw [lookup_removeItems, if_neg hb, lookup_eSetItem_other _ a b _ hb,
      eAdd_cold_frame core now a b _ hcolda hnoev hb]
    exact heb
  have hld : lookupItems (removeItems (eSetItem (eAdd core now a
      (⟨default, none⟩ : EItem V)).2 a ⟨va, none⟩).items a) d = some ed := by
    rw [lookup_removeItems, if_neg hd, lookup_eSetItem_other _ a d _ hd,
      eAdd_cold_frame core now a d _ hcolda hnoev hd]
    exact hed
  have hla : lookupItems (removeItems (eSetItem (eAdd core now a
      (⟨default, none⟩ : EItem V)).2 a ⟨va, none⟩).items a) a = none := by
    rw [lookup_removeItems]
    simp
  have h2a := GetLink_miss_result (c9After c now a b d va) _ now2 a wa [] hlocl2 hla
  have h2b := GetLink_hit (c9After c now a b d va) _ now2 b wb [] eb hlocl2 hlb hfreshb
  have h2d := GetLink_hit (c9After c now a b d va) _ now2 d wd [] ed hlocl2 hld hfreshd
  refine ⟨h2a.2.2, ?_, ?_, ?_, ?_⟩
  · rw [h2b]
  · rw [h2b]
  · rw [h2d]
  · rw [h2d]

/-- The concrete cache of the C9 witness: linkage nil, `b` and `d` resident. -/
def c9Demo : CState String :=
  { link := none
    locl := some { size := 10, ttl := 60, items := [("b", entryOf "vb"), ("d", entryOf "vd")] }
    pendingDel := [] }

/-- C9 witness: the theorem at a concrete input — `b` and `d` resident,
linkage nil, capacity 10 with room to spare. -/
theorem C9_disabled_linkage_witness :
    (c9Demo.link = none ∧
      lookupItems [("b", entryOf "vb"), ("d", entryOf "vd")] "a" = none ∧
      ¬ ((0 : Nat) < 10 ∧ (10 : Nat) < 2 + 1) ∧
      "b" ≠ "a" ∧ "d" ≠ "a" ∧
      ¬ (5 : Nat) > (entryOf "vb").expiresAt) ∧
    ((Cache.GetLink (c9After c9Demo 1 "a" "b" "d" "va") 5 "a" ("w", none) []).invoked = true ∧
     (Cache.GetLink (c9After c9Demo 1 "a" "b" "d" "va") 5 "b" ("w", none) []).invoked = false ∧
     (Cache.GetLink (c9After c9Demo 1 "a" "b" "d" "va") 5 "b" ("w", none) []).value = "vb" ∧
     (Cache.GetLink (c9After c9Demo 1 "a" "b" "d" "va") 5 "d" ("w", none) []).invoked = false ∧
     (Cache.GetLink (c9After c9Demo 1 "a" "b" "d" "va") 5 "d" ("w", none) []).value = "vd") :=
  ⟨⟨rfl, by decide, by decide, by decide, by decide, by decide⟩,
    C9_disabled_linkage c9Demo
      { size := 10, ttl := 60, items := [("b", entryOf "vb"), ("d", entryOf "vd")] }
      1 5 "a" "b" "d" "va" ("w", none) ("w", none) ("w", none) (entryOf "vb")
      (entryOf "vd") rfl rfl (by decide) (by decide) (by decide) (by decide) (by decide)
      (by decide) (by decide) (by decide)⟩
